import Mathlib

/-!
Verification of the cnotes conversation-to-commit annotation engine.

Go strings are byte sequences; we embed them as `List Nat` (each element one
UTF-8 byte, always < 256 for strings built by `gb`).  `Go len`, slicing and
the regexp patterns in the source all operate on bytes, so this embedding is
exact for the length, truncation and redaction behaviour verified below.
-/

/-- A Go string: its UTF-8 bytes. -/
abbrev GoStr : Type := List Nat

/-- UTF-8 encoding of one character, as byte values. -/
def charUTF8 (c : Char) : List Nat :=
  let n := c.toNat
  if n < 128 then [n]
  else if n < 2048 then [192 + n / 64, 128 + n % 64]
  else if n < 65536 then [224 + n / 4096, 128 + n / 64 % 64, 128 + n % 64]
  else [240 + n / 262144, 128 + n / 4096 % 64, 128 + n / 64 % 64, 128 + n % 64]

/-- Bytes of a Lean string literal, used to transcribe Go string literals. -/
def gb (s : String) : GoStr := s.data.flatMap charUTF8

/-- Go `len(s)`: the number of bytes. -/
def golen (s : GoStr) : Nat := List.length s



/-! ### Go string primitives (bytes) -/

/-- Go `s[:n]` for `0 <= n <= len(s)`. -/
def goTake (n : Nat) (s : GoStr) : GoStr := List.take n s

/-- Go `strings.Split(s, sep)` for a one-byte separator `sep`. -/
def splitByte (b : Nat) : GoStr → List GoStr
  | [] => [[]]
  | c :: rest =>
    match splitByte b rest with
    | [] => [[]]
    | h :: t => if c = b then [] :: h :: t else (c :: h) :: t

/-- Go `strings.Join(xs, sep)`. -/
def goJoin (sep : GoStr) : List GoStr → GoStr
  | [] => []
  | [x] => x
  | x :: y :: t => x ++ sep ++ goJoin sep (y :: t)

/-- Byte is ASCII whitespace for `unicode.IsSpace` (`strings.TrimSpace`). -/
def isSpaceByte (b : Nat) : Bool :=
  b = 9 || b = 10 || b = 11 || b = 12 || b = 13 || b = 32

/-- Go `strings.TrimSpace` (transcripts and git output here are ASCII). -/
def trimSpace (s : GoStr) : GoStr :=
  (List.dropWhile isSpaceByte (List.dropWhile isSpaceByte s).reverse).reverse

/-- Go `strings.HasPrefix(s, pre)`. -/
def startsWith (pre s : GoStr) : Bool := List.isPrefixOf pre s

/-- Go `strings.HasSuffix(s, suf)`. -/
def endsWith (suf s : GoStr) : Bool := List.isSuffixOf suf s

/-- Go `strings.TrimPrefix(s, pre)`. -/
def trimPre (pre s : GoStr) : GoStr :=
  if startsWith pre s then List.drop (golen pre) s else s

/-- Go `strings.Contains(s, sub)`. -/
def goContains (sub : GoStr) : GoStr → Bool
  | [] => startsWith sub []
  | c :: rest => startsWith sub (c :: rest) || goContains sub rest

/-! ### The redaction filter (4.1)

`NewContextExtractor` compiles four regular expressions; `sanitizeText`
applies `ReplaceAllString` for each in order.  We embed each pattern as a
matcher returning the length of the (leftmost-first, greedy, as RE2 matches)
match at the start of the given byte string, and replay Go's
`ReplaceAllString` scan on top of them. -/

/-- Byte class `\s` of Go regexp (Perl class: tab, newline, form feed, carriage return, space). -/
def reSpace (b : Nat) : Bool := b = 9 || b = 10 || b = 12 || b = 13 || b = 32

/-- Byte class `[:\s]`. -/
def reColonSpace (b : Nat) : Bool := b = 58 || reSpace b

/-- Byte class `[A-Za-z0-9+/]` (base64 alphabet). -/
def reB64 (b : Nat) : Bool :=
  (65 ≤ b && b ≤ 90) || (97 ≤ b && b ≤ 122) || (48 ≤ b && b ≤ 57) || b = 43 || b = 47

/-- Byte class `[A-Z ]`. -/
def reUpperSpace (b : Nat) : Bool := (65 ≤ b && b ≤ 90) || b = 32

/-- ASCII lowercasing of a byte, for the `(?i)` patterns. -/
def lowerByte (b : Nat) : Nat := if 65 ≤ b && b ≤ 90 then b + 32 else b

/-- Case-insensitive literal prefix test. -/
def ciStarts (pat s : GoStr) : Bool :=
  startsWith pat (goTake (golen pat) s |>.map lowerByte)

/-- Length of the maximal run of bytes in class `p` at the head of `s`. -/
def classRun (p : Nat → Bool) : GoStr → Nat
  | [] => 0
  | c :: rest => if p c then classRun p rest + 1 else 0

/-- Backtracking tail `[:\s]*[^\s\n]+` shared by the first two patterns:
`j` counts down from the greedy maximum of the starred class; the first `j`
whose remainder starts with a nonempty `[^\s\n]` run wins (in RE2 `\n` is in
`\s`, so `[^\s\n]` equals `[^\s]`). Returns the matched length. -/
def tailSearch (s : GoStr) : Nat → Option Nat
  | 0 =>
    let r := classRun (fun b => !reSpace b) s
    if r > 0 then some r else none
  | j + 1 =>
    let r := classRun (fun b => !reSpace b) (List.drop (j + 1) s)
    if r > 0 then some (j + 1 + r) else tailSearch s j

/-- Match length at the head of `s` for
`(?i)(password|token|key|secret)[:\s]*[^\s\n]+`. -/
def p1At (s : GoStr) : Option Nat :=
  let kw := [gb ("password"), gb ("token"), gb ("key"), gb ("secret")].findSome?
    (fun k => if ciStarts k s then some (golen k) else none)
  match kw with
  | none => none
  | some k =>
    let rest := List.drop k s
    match tailSearch rest (classRun reColonSpace rest) with
    | none => none
    | some t => some (k + t)

/-- Match length at the head of `s` for `(?i)(api[_-]?key)[:\s]*[^\s\n]+`. -/
def p2At (s : GoStr) : Option Nat :=
  if ciStarts (gb ("api")) s then
    let s3 := List.drop 3 s
    let key? : Option Nat :=
      match s3 with
      | c :: rest =>
        if (c = 95 || c = 45) && ciStarts (gb ("key")) rest then some 7
        else if ciStarts (gb ("key")) s3 then some 6 else none
      | [] => none
    match key? with
    | none => none
    | some k =>
      let rest := List.drop k s
      match tailSearch rest (classRun reColonSpace rest) with
      | none => none
      | some t => some (k + t)
  else none

/-- Backtracking search for the `-----` closer of the PEM pattern: `j` counts
down from the greedy maximum of `[A-Z ]+` (at least 1). -/
def p3Search (r : GoStr) : Nat → Option Nat
  | 0 => none
  | j + 1 =>
    if startsWith (gb ("-----")) (List.drop (j + 1) r) then some (j + 1 + 5)
    else p3Search r j

/-- Match length at the head of `s` for `-----BEGIN [A-Z ]+-----` (case sensitive). -/
def p3At (s : GoStr) : Option Nat :=
  if startsWith (gb ("-----BEGIN ")) s then
    let r := List.drop 11 s
    match p3Search r (classRun reUpperSpace r) with
    | none => none
    | some t => some (11 + t)
  else none

/-- Match length at the head of `s` for `[A-Za-z0-9+/]{40,}={0,2}`. -/
def p4At (s : GoStr) : Option Nat :=
  let m := classRun reB64 s
  if m ≥ 40 then some (m + min 2 (classRun (fun b => b = 61) (List.drop m s)))
  else none

/-- Leftmost match of a pattern: position and length. -/
def findPat (patAt : GoStr → Option Nat) : GoStr → Option (Nat × Nat)
  | [] => match patAt [] with
    | some l => some (0, l)
    | none => none
  | c :: rest =>
    match patAt (c :: rest) with
    | some l => some (0, l)
    | none =>
      match findPat patAt rest with
      | some (i, l) => some (i + 1, l)
      | none => none

/-- Go `Regexp.ReplaceAllString` scan: replace the leftmost match, continue
after it.  All four patterns only produce nonempty matches, so one byte of
progress per step is guaranteed; the fuel equals the input length plus one. -/
def replaceAllAux (patAt : GoStr → Option Nat) (repl : GoStr) : Nat → GoStr → GoStr
  | 0, s => s
  | fuel + 1, s =>
    match findPat patAt s with
    | none => s
    | some (i, l) =>
      goTake i s ++ repl ++ replaceAllAux patAt repl fuel (List.drop (i + max l 1) s)

/-- Go `Regexp.ReplaceAllString(s, repl)` for one of the patterns. -/
def replaceAllGo (patAt : GoStr → Option Nat) (repl : GoStr) (s : GoStr) : GoStr :=
  replaceAllAux patAt repl (golen s + 1) s

/-- The ordered pattern set built by `NewContextExtractor`. -/
def sensitivePatternList : List (GoStr → Option Nat) := [p1At, p2At, p3At, p4At]


/-! ### Go `sort.Slice`

`CreateExcerpt` sorts `context.Events` with `sort.Slice`, whose algorithm in
the Go standard library (`sort/zsortfunc.go`, Go ≥ 1.19) is pdqsort.  We
transcribe that algorithm exactly — it is what decides the tie-break
behaviour of the sort.  Arrays are lists; `data.Swap`/`data.Less` become
`lswap`/`cmpIdx` (out-of-range indices never arise in real executions; the
embedding makes them a no-op and `false`). -/

/-- One `data.Swap(i, j)`. -/
def lswap {α : Type} (l : List α) (i j : Nat) : List α :=
  match l.get? i, l.get? j with
  | some x, some y => (l.set i y).set j x
  | _, _ => l

/-- One `data.Less(i, j)`. -/
def cmpIdx {α : Type} (less : α → α → Bool) (l : List α) (i j : Nat) : Bool :=
  match l.get? i, l.get? j with
  | some x, some y => less x y
  | _, _ => false

/-- Inner loop of `insertionSort_func`: bubble index `j` down to `a`. -/
def bubbleLoop {α : Type} (less : α → α → Bool) (a : Nat) : Nat → List α → List α
  | 0, l => l
  | j + 1, l =>
    if a < j + 1 && cmpIdx less l (j + 1) j then bubbleLoop less a j (lswap l (j + 1) j)
    else l

/-- Outer loop of `insertionSort_func` (`i` ascending, `fuel ≥ b` suffices). -/
def insertionOuter {α : Type} (less : α → α → Bool) (a b : Nat) :
    Nat → Nat → List α → List α
  | 0, _, l => l
  | fuel + 1, i, l =>
    if i < b then insertionOuter less a b fuel (i + 1) (bubbleLoop less a i l) else l

/-- Go `insertionSort_func(data, a, b)`. -/
def insertionSortGo {α : Type} (less : α → α → Bool) (l : List α) (a b : Nat) : List α :=
  insertionOuter less a b b (a + 1) l

/-- Loop of `siftDown_func(data, lo, hi, first)` (`fuel ≥ hi` suffices). -/
def siftDownLoop {α : Type} (less : α → α → Bool) (hi first : Nat) :
    Nat → Nat → List α → List α
  | 0, _, l => l
  | fuel + 1, root, l =>
    let child := 2 * root + 1
    if child ≥ hi then l
    else
      let child :=
        if child + 1 < hi && cmpIdx less l (first + child) (first + child + 1) then child + 1
        else child
      if !cmpIdx less l (first + root) (first + child) then l
      else siftDownLoop less hi first fuel child (lswap l (first + root) (first + child))

/-- Go `siftDown_func(data, lo, hi, first)`. -/
def siftDownGo {α : Type} (less : α → α → Bool) (l : List α) (lo hi first : Nat) : List α :=
  siftDownLoop less hi first (hi + 1) lo l

/-- Heap-building loop of `heapSort_func`: `i` descending from `(hi-1)/2` to `0`. -/
def heapBuild {α : Type} (less : α → α → Bool) (hi first : Nat) : Nat → List α → List α
  | 0, l => siftDownGo less l 0 hi first
  | i + 1, l => heapBuild less hi first i (siftDownGo less l (i + 1) hi first)

/-- Pop loop of `heapSort_func`: `n` counts the remaining `i+1` values. -/
def heapPop {α : Type} (less : α → α → Bool) (first : Nat) : Nat → List α → List α
  | 0, l => l
  | n + 1, l => heapPop less first n (siftDownGo less (lswap l first (first + n)) 0 n first)

/-- Go `heapSort_func(data, a, b)`. -/
def heapSortGo {α : Type} (less : α → α → Bool) (l : List α) (a b : Nat) : List α :=
  heapPop less a (b - a) (heapBuild less (b - a) a ((b - a - 1) / 2) l)

/-- Go `reverseRange_func(data, a, b)` (`fuel ≥ b` suffices). -/
def revRangeAux {α : Type} : Nat → Nat → Nat → List α → List α
  | 0, _, _, l => l
  | fuel + 1, i, j, l => if i < j then revRangeAux fuel (i + 1) (j - 1) (lswap l i j) else l

/-- Go `reverseRange_func(data, a, b)`. -/
def reverseRangeGo {α : Type} (l : List α) (a b : Nat) : List α :=
  revRangeAux b a (b - 1) l

/-- Advance of `partialInsertionSort_func`: first `i' ≥ i` with `i' = b` or
`data.Less(i', i'-1)`. -/
def scanSortedPos {α : Type} (less : α → α → Bool) (b : Nat) :
    Nat → Nat → List α → Nat
  | 0, i, _ => i
  | fuel + 1, i, l =>
    if i < b && !cmpIdx less l i (i - 1) then scanSortedPos less b fuel (i + 1) l else i

/-- Left shift of `partialInsertionSort_func` (`j` descending while out of order). -/
def shiftLeftLoop {α : Type} (less : α → α → Bool) : Nat → List α → List α
  | 0, l => l
  | j + 1, l =>
    if cmpIdx less l (j + 1) j then shiftLeftLoop less j (lswap l (j + 1) j) else l

/-- Right shift of `partialInsertionSort_func` (`j` ascending while out of order). -/
def shiftRightLoop {α : Type} (less : α → α → Bool) (b : Nat) :
    Nat → Nat → List α → List α
  | 0, _, l => l
  | fuel + 1, j, l =>
    if j < b && cmpIdx less l j (j - 1) then shiftRightLoop less b fuel (j + 1) (lswap l j (j - 1))
    else l

/-- Outer loop of `partialInsertionSort_func` (at most `maxSteps = 5` rounds;
`shortestShifting = 50`).  Returns the data and the function's Bool result. -/
def partInsOuter {α : Type} (less : α → α → Bool) (a b : Nat) :
    Nat → Nat → List α → List α × Bool
  | 0, _, l => (l, false)
  | steps + 1, i, l =>
    let i := scanSortedPos less b b i l
    if i = b then (l, true)
    else if b - a < 50 then (l, false)
    else
      let l := lswap l i (i - 1)
      let l := if i - a ≥ 2 then shiftLeftLoop less (i - 1) l else l
      let l := if b - i ≥ 2 then shiftRightLoop less b b (i + 1) l else l
      partInsOuter less a b steps i l

/-- Go `partialInsertionSort_func(data, a, b)`. -/
def partInsertionSortGo {α : Type} (less : α → α → Bool) (l : List α) (a b : Nat) :
    List α × Bool :=
  partInsOuter less a b 5 (a + 1) l

/-- One step of the `xorshift` generator of `sort` (uint64 arithmetic). -/
def xorshiftNext (x : Nat) : Nat :=
  let m := 2 ^ 64
  let x := (x ^^^ (x * 2 ^ 13)) % m
  let x := (x ^^^ (x / 2 ^ 17)) % m
  (x ^^^ (x * 2 ^ 5)) % m

/-- Go `bits.Len` (position of the highest set bit). -/
def bitsLen (n : Nat) : Nat := if n = 0 then 0 else Nat.log2 n + 1

/-- Go `breakPatterns_func(data, a, b)`: three pseudo-random swaps (the xorshift
state is seeded with the range length, so this is deterministic). -/
def breakPatternsGo {α : Type} (l : List α) (a b : Nat) : List α :=
  let length := b - a
  if length ≥ 8 then
    let modulus := 2 ^ bitsLen length
    let idx := a + (length / 4) * 2 - 1
    let r1 := xorshiftNext length
    let r2 := xorshiftNext r1
    let r3 := xorshiftNext r2
    let other1 := let o := r1 % modulus; if o ≥ length then o - length else o
    let other2 := let o := r2 % modulus; if o ≥ length then o - length else o
    let other3 := let o := r3 % modulus; if o ≥ length then o - length else o
    let l := lswap l (idx - 1) (a + other1)
    let l := lswap l idx (a + other2)
    lswap l (idx + 1) (a + other3)
  else l

/-- The `sortedHint` values of `choosePivot_func`. -/
inductive SortedHint : Type
  | increasing
  | decreasing
  | unknown
deriving DecidableEq

/-- Go `order2_func`: indices ordered by `data.Less`, with the swap counter. -/
def order2Go {α : Type} (less : α → α → Bool) (l : List α) (a b swaps : Nat) :
    Nat × Nat × Nat :=
  if cmpIdx less l b a then (b, a, swaps + 1) else (a, b, swaps)

/-- Go `median_func`: the median of three indices, with the swap counter. -/
def medianGo {α : Type} (less : α → α → Bool) (l : List α) (a b c swaps : Nat) :
    Nat × Nat :=
  let p1 := order2Go less l a b swaps
  let p2 := order2Go less l p1.2.1 c p1.2.2
  let p3 := order2Go less l p1.1 p2.1 p2.2.2
  (p3.2.1, p3.2.2)

/-- Go `medianAdjacent_func`: the median of `a-1`, `a`, `a+1`. -/
def medianAdjacentGo {α : Type} (less : α → α → Bool) (l : List α) (a swaps : Nat) :
    Nat × Nat :=
  medianGo less l (a - 1) a (a + 1) swaps

/-- Go `choosePivot_func(data, a, b)` (`shortestNinther = 50`, `maxSwaps = 12`). -/
def choosePivotGo {α : Type} (less : α → α → Bool) (l : List α) (a b : Nat) :
    Nat × SortedHint :=
  let length := b - a
  let i := a + (length / 4) * 1
  let j := a + (length / 4) * 2
  let k := a + (length / 4) * 3
  let (j, swaps) :=
    if length ≥ 8 then
      let (i, j, k, s0) :=
        if length ≥ 50 then
          let q1 := medianAdjacentGo less l i 0
          let q2 := medianAdjacentGo less l j q1.2
          let q3 := medianAdjacentGo less l k q2.2
          (q1.1, q2.1, q3.1, q3.2)
        else (i, j, k, 0)
      medianGo less l i j k s0
    else (j, 0)
  if swaps = 0 then (j, SortedHint.increasing)
  else if swaps = 12 then (j, SortedHint.decreasing)
  else (j, SortedHint.unknown)

/-- Go `partition_func` scan: `for i <= j && data.Less(i, a) { i++ }`. -/
def advanceI {α : Type} (less : α → α → Bool) (l : List α) (aIdx : Nat) :
    Nat → Nat → Nat → Nat
  | 0, i, _ => i
  | fuel + 1, i, j => if i ≤ j && cmpIdx less l i aIdx then advanceI less l aIdx fuel (i + 1) j else i

/-- Go `partition_func` scan: `for i <= j && !data.Less(j, a) { j-- }`. -/
def retreatJ {α : Type} (less : α → α → Bool) (l : List α) (aIdx : Nat) :
    Nat → Nat → Nat → Nat
  | 0, _, j => j
  | fuel + 1, i, j =>
    if i ≤ j && !cmpIdx less l j aIdx then retreatJ less l aIdx fuel i (j - 1) else j

/-- Main loop of `partition_func` after the first crossing swap. -/
def partLoop {α : Type} (less : α → α → Bool) (aIdx b : Nat) :
    Nat → Nat → Nat → List α → List α × Nat
  | 0, _, j, l => (l, j)
  | fuel + 1, i, j, l =>
    let i := advanceI less l aIdx b i j
    let j := retreatJ less l aIdx b i j
    if i > j then (l, j)
    else partLoop less aIdx b fuel (i + 1) (j - 1) (lswap l i j)

/-- Go `partition_func(data, a, b, pivot)`: data, `newpivot`, `alreadyPartitioned`. -/
def partitionGo {α : Type} (less : α → α → Bool) (l : List α) (a b pivot : Nat) :
    List α × Nat × Bool :=
  let l := lswap l a pivot
  let i := advanceI less l a b (a + 1) (b - 1)
  let j := retreatJ less l a b i (b - 1)
  if i > j then (lswap l j a, j, true)
  else
    let l := lswap l i j
    let (l, j) := partLoop less a b b (i + 1) (j - 1) l
    (lswap l j a, j, false)

/-- Go `partitionEqual_func` scan: `for i <= j && !data.Less(a, i) { i++ }`. -/
def advanceIEq {α : Type} (less : α → α → Bool) (l : List α) (aIdx : Nat) :
    Nat → Nat → Nat → Nat
  | 0, i, _ => i
  | fuel + 1, i, j =>
    if i ≤ j && !cmpIdx less l aIdx i then advanceIEq less l aIdx fuel (i + 1) j else i

/-- Go `partitionEqual_func` scan: `for i <= j && data.Less(a, j) { j-- }`. -/
def retreatJEq {α : Type} (less : α → α → Bool) (l : List α) (aIdx : Nat) :
    Nat → Nat → Nat → Nat
  | 0, _, j => j
  | fuel + 1, i, j =>
    if i ≤ j && cmpIdx less l aIdx j then retreatJEq less l aIdx fuel i (j - 1) else j

/-- Loop of `partitionEqual_func`; returns the data and the final `i`. -/
def partEqLoop {α : Type} (less : α → α → Bool) (aIdx b : Nat) :
    Nat → Nat → Nat → List α → List α × Nat
  | 0, i, _, l => (l, i)
  | fuel + 1, i, j, l =>
    let i := advanceIEq less l aIdx b i j
    let j := retreatJEq less l aIdx b i j
    if i > j then (l, i)
    else partEqLoop less aIdx b fuel (i + 1) (j - 1) (lswap l i j)

/-- Go `partitionEqual_func(data, a, b, pivot)`: data and `newpivot`. -/
def partitionEqualGo {α : Type} (less : α → α → Bool) (l : List α) (a b pivot : Nat) :
    List α × Nat :=
  let l := lswap l a pivot
  partEqLoop less a b b (a + 1) (b - 1) l

/-- The `breakPatterns`/`limit--` step at the top of the pdqsort loop body. -/
def pdqBreakStep {α : Type} (l : List α) (a b limit : Nat) (wasBalanced : Bool) :
    List α × Nat :=
  if !wasBalanced then (breakPatternsGo l a b, limit - 1) else (l, limit)

/-- Pivot choice plus the reversal of a decreasing range. -/
def pdqPivotStep {α : Type} (less : α → α → Bool) (l : List α) (a b : Nat) :
    List α × Nat × SortedHint :=
  match choosePivotGo less l a b with
  | (pivot, hint) =>
    if hint = SortedHint.decreasing then
      (reverseRangeGo l a b, (b - 1) - (pivot - a), SortedHint.increasing)
    else (l, pivot, hint)

/-- The likely-already-sorted check of the pdqsort loop body. -/
def pdqPartialStep {α : Type} (less : α → α → Bool) (l : List α) (a b : Nat)
    (wasBalanced wasPartitioned : Bool) (hint : SortedHint) : List α × Bool :=
  if wasBalanced && wasPartitioned && hint = SortedHint.increasing then
    partInsertionSortGo less l a b
  else (l, false)

/-- Go `pdqsort_func(data, a, b, limit)`.  The Go `for` loop and the recursive
call on the smaller side both shrink `b - a`, so fuel `n + 8` is ample; a
fresh invocation resets `wasBalanced`/`wasPartitioned` to `true` exactly as
the Go locals do.  The mutable loop locals become the step functions above
plus explicit recursion. -/
def pdqsortGo {α : Type} (less : α → α → Bool) :
    Nat → List α → Nat → Nat → Nat → Bool → Bool → List α
  | 0, l, _, _, _, _, _ => l
  | fuel + 1, l, a, b, limit, wasBalanced, wasPartitioned =>
    if b - a ≤ 12 then insertionSortGo less l a b
    else if limit = 0 then heapSortGo less l a b
    else
      match pdqBreakStep l a b limit wasBalanced with
      | (l1, limit1) =>
        match pdqPivotStep less l1 a b with
        | (l2, pivot, hint) =>
          match pdqPartialStep less l2 a b wasBalanced wasPartitioned hint with
          | (l3, done) =>
            if done then l3
            else if decide (a > 0) && !cmpIdx less l3 (a - 1) pivot then
              match partitionEqualGo less l3 a b pivot with
              | (l4, mid) => pdqsortGo less fuel l4 mid b limit1 wasBalanced wasPartitioned
            else
              match partitionGo less l3 a b pivot with
              | (l4, mid, alreadyPartitioned) =>
                let leftLen := mid - a
                let rightLen := b - mid
                let newBalanced := decide (min leftLen rightLen ≥ (b - a) / 8)
                if leftLen < rightLen then
                  pdqsortGo less fuel
                    (pdqsortGo less fuel l4 a mid limit1 true true)
                    (mid + 1) b limit1 newBalanced alreadyPartitioned
                else
                  pdqsortGo less fuel
                    (pdqsortGo less fuel l4 (mid + 1) b limit1 true true)
                    a mid limit1 newBalanced alreadyPartitioned

/-- Go `sort.Slice(x, less)`: `limit := bits.Len(uint(length))`, then pdqsort
over the whole slice. -/
def sortSliceGo {α : Type} (less : α → α → Bool) (l : List α) : List α :=
  pdqsortGo less (l.length + 8) l 0 l.length (bitsLen l.length) true true


/-! ### Data model (`internal/context/conversation.go`)

`time.Time` values are embedded as seconds (`Int`); the zero `time.Time`
is the value `0` (only `Before`, i.e. `<`, and zero-ness are used by the
code under verification). -/

/-- Go `ConversationEvent`. -/
structure ConversationEvent : Type where
  timestamp : Int
  type : GoStr
  content : GoStr
  toolName : GoStr := []
deriving DecidableEq

/-- Go `ToolInteraction`. -/
structure ToolInteraction : Type where
  tool : GoStr
  input : GoStr
  output : GoStr
  duration : GoStr := []
deriving DecidableEq

/-- Go `ConversationContext`. -/
structure ConversationContext : Type where
  userPrompts : List GoStr := []
  claudeResponses : List GoStr := []
  toolInteractions : List ToolInteraction := []
  events : List ConversationEvent := []
  lastEventTime : Int := 0
deriving DecidableEq

/-- Go `config.NotesConfig` (`internal/config/notes.go`). -/
structure NotesConfig : Type where
  enabled : Bool
  maxExcerptLength : Int
  maxPrompts : Int
  includeToolOutput : Bool
  notesRef : GoStr
  excludePatterns : List GoStr
  userEmoji : GoStr
  assistantEmoji : GoStr

/-- Go `config.DefaultNotesConfig()`. -/
def defaultNotesConfig : NotesConfig where
  enabled := true
  maxExcerptLength := 5000
  maxPrompts := 2
  includeToolOutput := false
  notesRef := gb ("claude-conversations")
  excludePatterns :=
    [gb ("password"), gb ("token"), gb ("key"), gb ("secret"), gb ("api_key"), gb ("auth")]
  userEmoji := gb ("👤")
  assistantEmoji := gb ("🤖")

/-- Go `config.LoadNotesConfig`: the argument is the parse result of
`.claude/notes.json` (`none` = unreadable or invalid JSON). -/
def loadNotesConfig (parsed : Option NotesConfig) : NotesConfig :=
  match parsed with
  | none => defaultNotesConfig
  | some c =>
    { c with
      notesRef := if c.notesRef = [] then gb ("claude-conversations") else c.notesRef
      maxExcerptLength := if c.maxExcerptLength ≤ 0 then 5000 else c.maxExcerptLength
      maxPrompts := if c.maxPrompts ≤ 0 then 2 else c.maxPrompts
      userEmoji := if c.userEmoji = [] then gb ("👤") else c.userEmoji
      assistantEmoji := if c.assistantEmoji = [] then gb ("🤖") else c.assistantEmoji }

/-- Go `ContextExtractor`. -/
structure ContextExtractor : Type where
  maxExcerptLength : Int
  sensitivePatterns : List (GoStr → Option Nat)
  config : Option NotesConfig

/-- Go `NewContextExtractor(cfg)` (`cfg = none` is Go `nil`). -/
def newContextExtractor (cfg : Option NotesConfig) : ContextExtractor where
  maxExcerptLength :=
    match cfg with
    | some c => if c.maxExcerptLength > 0 then c.maxExcerptLength else 5000
    | none => 5000
  sensitivePatterns := sensitivePatternList
  config := cfg

/-- Go `(*ContextExtractor).sanitizeText`: apply `ReplaceAllString` with
`"[REDACTED]"` for each pattern in order. -/
def sanitizeText (ce : ContextExtractor) (text : GoStr) : GoStr :=
  ce.sensitivePatterns.foldl (fun t patAt => replaceAllGo patAt (gb ("[REDACTED]")) t) text

/-- Go `(*ContextExtractor).filterSensitiveContent`: sanitizes the prompts,
responses and tool interactions — and, as in the source, does not touch
`Events` or `LastEventTime`. -/
def filterSensitiveContent (ce : ContextExtractor) (ctx : ConversationContext) :
    ConversationContext :=
  { ctx with
    userPrompts := ctx.userPrompts.map (sanitizeText ce)
    claudeResponses := ctx.claudeResponses.map (sanitizeText ce)
    toolInteractions := ctx.toolInteractions.map
      (fun ti => { ti with input := sanitizeText ce ti.input, output := sanitizeText ce ti.output }) }

/-- The merge loop of `ExtractContextSince` (lines 100–117): the contexts
parsed from the individual `.jsonl` files are appended fieldwise into the
fresh combined context. -/
def mergeContexts (fileContexts : List ConversationContext) : ConversationContext :=
  fileContexts.foldl
    (fun acc c =>
      { acc with
        userPrompts := acc.userPrompts ++ c.userPrompts
        claudeResponses := acc.claudeResponses ++ c.claudeResponses
        toolInteractions := acc.toolInteractions ++ c.toolInteractions
        events := acc.events ++ c.events })
    {}

/-- Go `ExtractContextSince` after the per-file parses: merge, then apply the
privacy filter (the directory enumeration and JSONL parsing feed in the
per-file contexts). -/
def extractContextSinceMerged (ce : ContextExtractor) (fileContexts : List ConversationContext) :
    ConversationContext :=
  filterSensitiveContent ce (mergeContexts fileContexts)

/-! ### The excerpt compiler (`CreateExcerpt`) -/

/-- The comparison closure passed to `sort.Slice` in `CreateExcerpt`:
`Events[i].Timestamp.Before(Events[j].Timestamp)`. -/
def eventBefore (e1 e2 : ConversationEvent) : Bool := e1.timestamp < e2.timestamp

/-- The `sort.Slice` call of `CreateExcerpt`. -/
def goSortEvents (events : List ConversationEvent) : List ConversationEvent :=
  sortSliceGo eventBefore events

/-- One iteration of the rendering loop of `CreateExcerpt`: the line built
for one event (`[]` when the event type matches no case). -/
def renderLine (ce : ContextExtractor) (event : ConversationEvent) : GoStr :=
  if event.type = gb ("user") then
    let content := if golen event.content > 200 then goTake 197 event.content ++ gb ("...")
      else event.content
    let emoji :=
      match ce.config with
      | some c => if c.userEmoji ≠ [] then c.userEmoji else gb ("👤")
      | none => gb ("👤")
    emoji ++ gb (" User: ") ++ content
  else if event.type = gb ("assistant") then
    let content := if golen event.content > 200 then goTake 197 event.content ++ gb ("...")
      else event.content
    let emoji :=
      match ce.config with
      | some c => if c.assistantEmoji ≠ [] then c.assistantEmoji else gb ("🤖")
      | none => gb ("🤖")
    emoji ++ gb (" Claude: ") ++ content
  else if event.type = gb ("tool") then
    let content := if golen event.content > 150 then goTake 147 event.content ++ gb ("...")
      else event.content
    gb ("Tool (") ++ event.toolName ++ gb ("): ") ++ content
  else if event.type = gb ("tool_result") then
    let lines := splitByte 10 event.content
    let content :=
      if lines.length > 3 then goJoin (gb ("\n")) (lines.take 3) ++ gb ("\n[...]")
      else if golen event.content > 150 then goTake 147 event.content ++ gb ("...")
      else event.content
    gb ("Result: ") ++ content
  else []

/-- The untruncated render of `CreateExcerpt`: the nonempty lines of the
sorted events joined with blank lines. -/
def renderedExcerpt (ce : ContextExtractor) (ctx : ConversationContext) : GoStr :=
  goJoin (gb ("\n\n")) (((goSortEvents ctx.events).map (renderLine ce)).filter (fun line => line ≠ []))

/-- Go `CreateExcerpt`, including its effect on the caller's context: the method
sorts `context.Events` in place, renders the lines, joins them with blank
lines and hard-truncates.  The excerpt is `none` exactly when the Go code
panics (`excerpt[:maxExcerptLength-3]` with a negative index, reachable for
a configured maximum below 3). -/
def createExcerptRun (ce : ContextExtractor) (ctx : ConversationContext) :
    ConversationContext × Option GoStr :=
  let sorted := goSortEvents ctx.events
  let ctx2 := { ctx with events := sorted }
  let excerpt := renderedExcerpt ce ctx
  let out :=
    if (golen excerpt : Int) > ce.maxExcerptLength then
      if ce.maxExcerptLength - 3 < 0 then none
      else some (goTake (ce.maxExcerptLength - 3).toNat excerpt ++ gb ("..."))
    else some excerpt
  (ctx2, out)

/-- The string returned by `CreateExcerpt` (when it does not panic). -/
def createExcerpt (ce : ContextExtractor) (ctx : ConversationContext) : Option GoStr :=
  (createExcerptRun ce ctx).2

/-! ### The annotation store (`internal/notes/git_notes.go`, `backup.go`)

The git-level state is the set of resolvable commit ids plus the notes of
each ref, keyed by `(ref, commit)`.  A stored blob is `some n` when it is
the JSON of a `ConversationNote` and `none` when it does not parse
(`git notes show` hands back whatever bytes were stored). -/

/-- Go `notes.ConversationNote`. -/
structure ConversationNote : Type where
  sessionID : GoStr
  timestamp : Int
  conversationExcerpt : GoStr
  toolsUsed : List GoStr
  commitContext : GoStr
  claudeVersion : GoStr
  lastEventTime : Int := 0
deriving DecidableEq

/-- A note blob as stored in git. -/
abbrev NoteBlob : Type := Option ConversationNote

/-- The mutable git state the store operates on. -/
structure GitState : Type where
  commits : List GoStr
  notes : List ((GoStr × GoStr) × NoteBlob)
deriving DecidableEq

/-- Go `git cat-file -e <h>`: does the object resolve? -/
def gitCatFileE (st : GitState) (h : GoStr) : Bool := st.commits.contains h

/-- Go `git notes --ref <ref> show <h>`: `none` models the command failing
(no note for the object). -/
def gitNotesShow (st : GitState) (ref h : GoStr) : Option NoteBlob :=
  st.notes.lookup (ref, h)

/-- Go `git notes --ref <ref> add -m <blob> <h>`: git refuses the write when the
object does not resolve or the object already has a note in the ref
(`none` models the command failing). -/
def gitNotesAdd (st : GitState) (ref h : GoStr) (blob : NoteBlob) : Option GitState :=
  if ¬ gitCatFileE st h then none
  else if (st.notes.lookup (ref, h)).isSome then none
  else some { st with notes := st.notes ++ [((ref, h), blob)] }

/-- Go `git notes --ref <ref> list`: the annotated commit ids of the ref. -/
def gitNotesList (st : GitState) (ref : GoStr) : List GoStr :=
  st.notes.filterMap (fun p => if p.1.1 = ref then some p.1.2 else none)

/-- Go `notes.NotesManager`. -/
structure NotesManager : Type where
  notesRef : GoStr
  workDir : GoStr

/-- Go `notes.NewNotesManager(workDir)`. -/
def newNotesManager (workDir : GoStr) : NotesManager where
  notesRef := gb ("claude-conversations")
  workDir := workDir

/-- Go `(*NotesManager).SetNotesRef`. -/
def setNotesRef (nm : NotesManager) (ref : GoStr) : NotesManager :=
  if ref ≠ [] then { nm with notesRef := ref } else nm

/-- Go `(*NotesManager).GetConversationNote`: a failing `git notes show` is a
normal absent note (`ok none`); a blob that fails to unmarshal is an error
with a `nil` note. -/
def getConversationNote (st : GitState) (nm : NotesManager) (h : GoStr) :
    Except Unit (Option ConversationNote) :=
  match gitNotesShow st nm.notesRef h with
  | none => Except.ok none
  | some (some note) => Except.ok (some note)
  | some none => Except.error ()

/-- Go `(*NotesManager).HasConversationNote`: `note != nil` after dropping the
error. -/
def hasConversationNote (st : GitState) (nm : NotesManager) (h : GoStr) : Bool :=
  match getConversationNote st nm h with
  | Except.ok (some _) => true
  | _ => false

/-- Go `(*NotesManager).AddConversationNote`: marshal (which cannot fail) and
`git notes add`. -/
def addConversationNote (st : GitState) (nm : NotesManager) (h : GoStr)
    (note : ConversationNote) : Except Unit GitState :=
  match gitNotesAdd st nm.notesRef h (some note) with
  | none => Except.error ()
  | some st2 => Except.ok st2

/-- Go `notes.NotesBackup` (its `Notes` map as an association list; the theorems
below quantify over every list, which covers Go's randomized map order). -/
structure NotesBackup : Type where
  backupTime : Int
  notesRef : GoStr
  notes : List (GoStr × ConversationNote)
deriving DecidableEq

/-- Go `(*NotesManager).BackupAllNotes`: list the annotated ids of the ref and
keep each one whose note reads back and parses. -/
def backupAllNotes (st : GitState) (nm : NotesManager) (now : Int) : NotesBackup where
  backupTime := now
  notesRef := nm.notesRef
  notes :=
    (gitNotesList st nm.notesRef).foldl
      (fun acc h =>
        match getConversationNote st nm h with
        | Except.ok (some note) => acc ++ [(h, note)]
        | _ => acc)
      []

/-- Outcome of `RestoreNotesFromBackup`: final state, restored and skipped
counts, and whether the restore aborted with an error. -/
structure RestoreResult : Type where
  state : GitState
  restored : Nat
  skipped : Nat
  failed : Bool
deriving DecidableEq

/-- The loop of `RestoreNotesFromBackup`: skip ids that no longer resolve,
skip ids that already have a note, otherwise add; the first failing add
aborts (writes so far stay). -/
def restoreLoop (nm : NotesManager) :
    List (GoStr × ConversationNote) → GitState → Nat → Nat → RestoreResult
  | [], st, restored, skipped => ⟨st, restored, skipped, false⟩
  | (h, note) :: rest, st, restored, skipped =>
    if ¬ gitCatFileE st h then restoreLoop nm rest st restored (skipped + 1)
    else if hasConversationNote st nm h then restoreLoop nm rest st restored (skipped + 1)
    else
      match addConversationNote st nm h note with
      | Except.error _ => ⟨st, restored, skipped, true⟩
      | Except.ok st2 => restoreLoop nm rest st2 (restored + 1) skipped

/-- Go `(*NotesManager).RestoreNotesFromBackup`. -/
def restoreNotesFromBackup (st : GitState) (nm : NotesManager) (backup : NotesBackup) :
    RestoreResult :=
  restoreLoop nm backup.notes st 0 0

/-! ### The orchestrator (`cmd/root.go`) -/

/-- Go `cmd.BashToolInput`. -/
structure BashToolInput : Type where
  command : GoStr
  description : GoStr := []
deriving DecidableEq

/-- Go `cmd.HookInput`.  `toolInput` is the parse result of the raw
`tool_input` JSON (`none` = unmarshal failure); `toolResponse` is the
`stdout` field of the parsed `tool_response` (`none` = absent or
unparseable, which leaves `gitOutput` empty exactly as in the source). -/
structure HookInput : Type where
  sessionID : GoStr
  transcriptPath : GoStr
  cwd : GoStr
  hookEventName : GoStr
  toolName : GoStr
  toolInput : Option BashToolInput
  toolResponse : Option GoStr

/-- Go `cmd.HookOutput`. -/
structure HookOutput : Type where
  decision : GoStr
deriving DecidableEq

/-- The environment a single hook invocation reads: configuration file parse,
the per-file transcript parses feeding `ExtractContextSince`, whether the
transcript read errored, the `git log -1 --format=%cI HEAD~1` query
(`none` = command failed, `some none` = unparseable timestamp, `some (some t)`
= parsed), and the clock. -/
structure HookEnv : Type where
  configFile : Option NotesConfig
  fileContexts : List ConversationContext
  extractErr : Bool
  prevCommitQuery : Option (Option Int)
  now : Int

/-- Go `cmd.isGitCommitCommand`. -/
def isGitCommitCommand (command : GoStr) : Bool :=
  goContains (gb ("git commit")) (trimSpace command)

/-- The per-line body of `cmd.extractCommitHash`: the token after the first
space inside the leading `[...]` group, when present. -/
def extractHashLine (line : GoStr) : Option GoStr :=
  let line := trimSpace line
  if startsWith (gb ("[")) line && goContains (gb ("]")) line then
    match splitByte 93 line with
    | p0 :: _ =>
      let beforeBracket := trimSpace (trimPre (gb ("[")) p0)
      match splitByte 32 beforeBracket with
      | _ :: h :: _ => some h
      | _ => none
    | [] => none
  else none

/-- Go `cmd.extractCommitHash`: only the bracketed `[branch hash]` form. -/
def extractCommitHash (output : GoStr) : GoStr :=
  match (splitByte 10 output).findSome? extractHashLine with
  | some h => h
  | none => []

/-- The per-line body of `notes.ExtractCommitHashFromOutput`: the bracketed
form first, then the `commit <hash>` form. -/
def extractFromOutputLine (line : GoStr) : Option GoStr :=
  match extractHashLine line with
  | some h => some h
  | none =>
    let line := trimSpace line
    if startsWith (gb ("commit ")) line then
      match splitByte 32 line with
      | _ :: h :: _ => some h
      | _ => none
    else none

/-- Go `notes.ExtractCommitHashFromOutput`. -/
def extractCommitHashFromOutput (output : GoStr) : GoStr :=
  match (splitByte 10 output).findSome? extractFromOutputLine with
  | some h => h
  | none => []

/-- Go `cmd.buildCommitContext`: the command line plus the first trimmed line of
the git output containing both brackets. -/
def buildCommitContext (command output : GoStr) : GoStr :=
  let result :=
    (splitByte 10 output).findSome? (fun line =>
      let line := trimSpace line
      if line ≠ [] && goContains (gb ("[")) line && goContains (gb ("]")) line then some line
      else none)
  match result with
  | some line => gb ("Git command: ") ++ command ++ gb ("\n") ++ gb ("Result: ") ++ line
  | none => gb ("Git command: ") ++ command

/-- The tools-used collection loop of `processGitCommit`. -/
def collectTools (interactions : List ToolInteraction) : List GoStr :=
  interactions.foldl
    (fun acc i => if i.tool ≠ [] && ¬ acc.contains i.tool then acc ++ [i.tool] else acc)
    [gb ("Bash")]

/-- Go `cmd.getLastCommitTimeForSession`: the session id is accepted but unused;
a failing query or unparseable timestamp gives the zero time, otherwise the
parent commit's time minus the fixed 60 second buffer. -/
def getLastCommitTimeForSession (query : Option (Option Int)) (sessionID : GoStr) : Int :=
  match query with
  | none => 0
  | some none => 0
  | some (some t) => t - 60

/-- Go `cmd.processGitCommit`.  `none` is a Go runtime panic escaping (the
excerpt truncation with a configured maximum below 3); `some (st, b)` is a
normal return with `b` reporting a (logged) error. -/
def processGitCommit (env : HookEnv) (st : GitState) (input : HookInput)
    (bashInput : BashToolInput) : Option (GitState × Bool) :=
  let gitOutput := match input.toolResponse with | some s => s | none => []
  if gitOutput = [] then some (st, true)
  else
    let commitHash := extractCommitHash gitOutput
    if commitHash = [] then some (st, true)
    else
      let cfg := loadNotesConfig env.configFile
      let nm := setNotesRef (newNotesManager input.cwd) cfg.notesRef
      if hasConversationNote st nm commitHash then some (st, false)
      else
        let _previousCommitTime := getLastCommitTimeForSession env.prevCommitQuery input.sessionID
        let contextExtractor := newContextExtractor (some cfg)
        if env.extractErr then some (st, true)
        else
          let conversationContext := extractContextSinceMerged contextExtractor env.fileContexts
          match createExcerpt contextExtractor conversationContext with
          | none => none
          | some excerpt =>
            let note : ConversationNote :=
              { sessionID := input.sessionID
                timestamp := env.now
                conversationExcerpt := excerpt
                toolsUsed := collectTools conversationContext.toolInteractions
                commitContext := buildCommitContext bashInput.command gitOutput
                claudeVersion := gb ("claude-sonnet-4-20250514") }
            match addConversationNote st nm commitHash note with
            | Except.error _ => some (st, true)
            | Except.ok st2 => some (st2, false)

/-- What arrived on stdin for one invocation. -/
inductive StdinEvent : Type
  | readErr
  | empty
  | badJSON
  | ok (input : HookInput)

/-- Observable outcome of one `runHook` invocation. -/
inductive RunOutcome : Type
  | approveOut (st : GitState)
  | hardErr
  | panicked (st : GitState)
deriving DecidableEq

/-- Go `cmd.runHook`: the only error returns are the stdin read/parse failures;
every later failure is logged and the decision is still `approve`. -/
def runHook (env : HookEnv) (st : GitState) (stdin : StdinEvent) : RunOutcome :=
  match stdin with
  | StdinEvent.readErr => RunOutcome.hardErr
  | StdinEvent.empty => RunOutcome.hardErr
  | StdinEvent.badJSON => RunOutcome.hardErr
  | StdinEvent.ok input =>
    if input.hookEventName ≠ gb ("PostToolUse") || input.toolName ≠ gb ("Bash") then
      RunOutcome.approveOut st
    else
      match input.toolInput with
      | none => RunOutcome.approveOut st
      | some bashInput =>
        if ¬ isGitCommitCommand bashInput.command then RunOutcome.approveOut st
        else if ¬ (loadNotesConfig env.configFile).enabled then RunOutcome.approveOut st
        else
          match processGitCommit env st input bashInput with
          | none => RunOutcome.panicked st
          | some (st2, _) => RunOutcome.approveOut st2

/-- The state after `processGitCommit` (a panic leaves the store untouched:
nothing is written before the excerpt is compiled). -/
def pgcState (env : HookEnv) (st : GitState) (input : HookInput)
    (bashInput : BashToolInput) : GitState :=
  match processGitCommit env st input bashInput with
  | some (st2, _) => st2
  | none => st

/-! ### The conversation window (`cmd/root.go` lines 249–268) -/

/-- A commit of the repository's linear history, oldest first, with the
session that produced it. -/
structure RepoCommit : Type where
  time : Int
  session : GoStr
deriving DecidableEq

/-- What `git log -1 --format=%cI HEAD~1` answers over a linear history:
the parent of `HEAD` when there are at least two commits (git prints its
time, which `time.Parse` then reads back). -/
def headParentQuery (history : List RepoCommit) : Option (Option Int) :=
  match history.reverse with
  | _head :: parent :: _ => some (some parent.time)
  | _ => none

/-- Following the spec's words, for comparison with the code: "`since` is
derived from the previous commit's timestamp in the same session, offset
backward by a fixed buffer; `since` is the zero instant when there is no
previous commit" — the most recent commit before `HEAD` carrying the given
session id. -/
def specWindowStart (history : List RepoCommit) (sessionID : GoStr) : Int :=
  match history.reverse with
  | [] => 0
  | _head :: earlier =>
    match earlier.find? (fun c => c.session = sessionID) with
    | some c => c.time - 60
    | none => 0

/-! ### Concrete instances used by the theorems below -/

/-- A context as parsed from a transcript with one user record whose text
holds a password: the parser puts the text both into `UserPrompts` and into
`Events`. -/
def c1FailingContext : ConversationContext where
  userPrompts := [gb ("password: hunter2")]
  events := [{ timestamp := 5, type := gb ("user"), content := gb ("password: hunter2") }]

/-- The extractor with Go `nil` configuration. -/
def ceNil : ContextExtractor := newContextExtractor none

/-- Twenty base64-alphabet bytes (character `A`): clean on its own, half of a
long enough run when doubled. -/
def c9Half : GoStr := List.replicate 20 65

/-- A linear history whose `HEAD` and oldest commit belong to session `A`
while the parent of `HEAD` belongs to session `B`. -/
def c7History : List RepoCommit :=
  [⟨1000, gb ("A")⟩, ⟨2000, gb ("B")⟩, ⟨3000, gb ("A")⟩]

/-- A configuration file setting `max_excerpt_length` to `1` — accepted by
`LoadNotesConfig`, since only values `≤ 0` are replaced by the default. -/
def rawConfigMax1 : NotesConfig where
  enabled := true
  maxExcerptLength := 1
  maxPrompts := 2
  includeToolOutput := false
  notesRef := []
  excludePatterns := []
  userEmoji := []
  assistantEmoji := []

/-- The extractor configured from that file: maximum excerpt length 1. -/
def ceMax1 : ContextExtractor := newContextExtractor (some (loadNotesConfig (some rawConfigMax1)))

/-- A context with a single short user event. -/
def oneEventCtx : ConversationContext where
  events := [{ timestamp := 0, type := gb ("user"), content := gb ("hello") }]

/-- A context with a single short assistant event. -/
def oneAssistantCtx : ConversationContext where
  events := [{ timestamp := 3, type := gb ("assistant"), content := gb ("ok") }]

/-- The hook environment of an invocation reading the max-length-1
configuration and a transcript with one user event. -/
def envMax1 : HookEnv where
  configFile := some rawConfigMax1
  fileContexts := [oneEventCtx]
  extractErr := false
  prevCommitQuery := none
  now := 0

/-- A parsed hook event for a successful `git commit`. -/
def inputCommit : HookInput where
  sessionID := []
  transcriptPath := []
  cwd := []
  hookEventName := gb ("PostToolUse")
  toolName := gb ("Bash")
  toolInput := some { command := gb ("git commit -m x") }
  toolResponse := some (gb ("[main abc1234] x"))

/-- A repository with no commits and no notes. -/
def emptyGitState : GitState := ⟨[], []⟩

/-- A well-formed stored note. -/
def noteW : ConversationNote where
  sessionID := gb ("s1")
  timestamp := 0
  conversationExcerpt := gb ("hi")
  toolsUsed := [gb ("Bash")]
  commitContext := []
  claudeVersion := gb ("v")

/-- A store with one commit carrying one valid note in the default ref. -/
def stW : GitState := ⟨[gb ("c1")], [((gb ("claude-conversations"), gb ("c1")), some noteW)]⟩

/-- The default-ref manager for that store. -/
def nmW : NotesManager := newNotesManager []

/-- A backup carrying an entry for an object the store does not have. -/
def backupW : NotesBackup := ⟨0, gb ("claude-conversations"), [(gb ("c2"), noteW)]⟩

/-- Thirteen parsed events (distinct one-byte contents) with interleaved
equal timestamps: enough to push `sort.Slice` past its stable
insertion-sort cutoff of 12. -/
def cexEvents13 : List ConversationEvent :=
  [⟨2, gb ("user"), [65], []⟩, ⟨1, gb ("user"), [66], []⟩, ⟨2, gb ("user"), [67], []⟩,
   ⟨1, gb ("user"), [68], []⟩, ⟨2, gb ("user"), [69], []⟩, ⟨1, gb ("user"), [70], []⟩,
   ⟨2, gb ("user"), [71], []⟩, ⟨1, gb ("user"), [72], []⟩, ⟨2, gb ("user"), [73], []⟩,
   ⟨1, gb ("user"), [74], []⟩, ⟨2, gb ("user"), [75], []⟩, ⟨1, gb ("user"), [76], []⟩,
   ⟨0, gb ("user"), [77], []⟩]

/-- Two events given to the compiler in reverse timestamp order. -/
def twoEventsCtx : ConversationContext where
  events := [⟨5, gb ("user"), [65], []⟩, ⟨1, gb ("user"), [66], []⟩]

/-- Three shuffled events, two sharing a timestamp. -/
def cexSmall : List ConversationEvent :=
  [⟨5, gb ("user"), [65], []⟩, ⟨1, gb ("user"), [66], []⟩, ⟨5, gb ("user"), [67], []⟩]

/-! ## Theorems -/

/-- C1: redaction does not reach the excerpt.  For the aggregated context of
a transcript with one user event containing `password: hunter2`, the privacy
filter redacts `UserPrompts`, but `CreateExcerpt` renders `Events`, which
`filterSensitiveContent` never touches — so the compiled excerpt still
contains the secret `hunter2`. -/
theorem c1_secret_reaches_excerpt :
    (extractContextSinceMerged ceNil [c1FailingContext]).userPrompts = [gb ("[REDACTED]")]
    ∧ goContains (gb ("hunter2"))
        ((createExcerpt ceNil (extractContextSinceMerged ceNil [c1FailingContext])).getD [])
      = true := by
  constructor
  · decide
  · decide

/-- C6 counterexample: the orchestrator extracts commit ids with
`cmd.extractCommitHash`, which yields the empty string on the
`commit <hash>` form the claim says it falls back to. -/
theorem c6_counterexample_commit_form :
    extractCommitHash (gb ("commit 1234567890abcdef")) = []
    ∧ gb ("1234567890abcdef") ≠ [] := by
  constructor
  · decide
  · decide

/-- C6 amended: the orchestrator's `extractCommitHash` handles only the
bracketed `[branch shorthash]` form and yields empty on anything else,
including the `commit <hash>` form; the commit-hash fallback exists only in
the library function `notes.ExtractCommitHashFromOutput`, which behaves as
the claim describes on all three inputs. -/
theorem c6_extraction_behaviour :
    extractCommitHash (gb ("[main abc1234] message")) = gb ("abc1234")
    ∧ extractCommitHash (gb ("commit 1234567890abcdef")) = []
    ∧ extractCommitHash (gb ("nothing to see here")) = []
    ∧ extractCommitHashFromOutput (gb ("[main abc1234] message")) = gb ("abc1234")
    ∧ extractCommitHashFromOutput (gb ("commit 1234567890abcdef")) = gb ("1234567890abcdef")
    ∧ extractCommitHashFromOutput (gb ("nothing to see here")) = [] := by
  refine ⟨by decide, by decide, by decide, by decide, by decide, by decide⟩

/-- C7 counterexample: with a parent commit from another session, the window
start computed by the code (from `HEAD~1`, ignoring the session) differs
from the spec's previous-commit-in-the-same-session timestamp minus the
60-second buffer. -/
theorem c7_counterexample_session_ignored :
    getLastCommitTimeForSession (headParentQuery c7History) (gb ("A"))
      ≠ specWindowStart c7History (gb ("A")) := by
  decide

/-- C7 amended: the window start is the timestamp of the parent of `HEAD`
minus the fixed 60-second buffer, regardless of the session id, and the zero
instant when there is no parent commit or its timestamp cannot be read. -/
theorem c7_window_start :
    (∀ (query : Option (Option Int)) (sid sid2 : GoStr),
      getLastCommitTimeForSession query sid = getLastCommitTimeForSession query sid2)
    ∧ (∀ (t : Int) (sid : GoStr), getLastCommitTimeForSession (some (some t)) sid = t - 60)
    ∧ (∀ sid : GoStr, getLastCommitTimeForSession none sid = 0)
    ∧ (∀ sid : GoStr, getLastCommitTimeForSession (some none) sid = 0)
    ∧ (∀ (history : List RepoCommit) (sid : GoStr),
        getLastCommitTimeForSession (headParentQuery history) sid =
          match history.reverse with
          | _head :: parent :: _ => parent.time - 60
          | _ => 0) := by
  refine ⟨fun q sid sid2 => rfl, fun t sid => rfl, fun sid => rfl, fun sid => rfl, ?_⟩
  intro history sid
  unfold headParentQuery getLastCommitTimeForSession
  cases history.reverse with
  | nil => rfl
  | cons h t => cases t with
    | nil => rfl
    | cons h2 t2 => rfl

/-- C9 counterexample: two twenty-byte base64-alphabet strings are each left
unchanged by `sanitizeText`, but their concatenation is one forty-byte run
that the base64 pattern redacts — sanitizing a concatenation of sanitized
pieces is not a no-op. -/
theorem c9_counterexample_concat :
    sanitizeText ceNil (sanitizeText ceNil c9Half ++ sanitizeText ceNil c9Half)
      ≠ sanitizeText ceNil c9Half ++ sanitizeText ceNil c9Half := by
  decide

/-- C9 amended: `sanitizeText` is deterministic and total — its output
depends only on the input text, the compiled pattern set being the same
constant for every configuration passed to `NewContextExtractor`. -/
theorem c9_sanitize_deterministic :
    ∀ (cfg cfg2 : Option NotesConfig) (s : GoStr),
      sanitizeText (newContextExtractor cfg) s = sanitizeText (newContextExtractor cfg2) s := by
  intro cfg cfg2 s
  rfl

/-! ### Shared helper lemmas -/

/-- Go `List.lookup` distributes over append. -/
theorem lookup_append_or {κ β : Type} [BEq κ] (a : κ) (l1 l2 : List (κ × β)) :
    (l1 ++ l2).lookup a = ((l1.lookup a).or (l2.lookup a)) := by
  induction l1 with
  | nil => simp [List.lookup]
  | cons p t ih =>
    obtain ⟨k, v⟩ := p
    simp only [List.cons_append, List.lookup]
    cases h : a == k <;> simp [h, ih]

/-- Sorting no events is no events. -/
theorem goSortEvents_nil : goSortEvents [] = [] := rfl

/-- An event-free context renders to the empty excerpt. -/
theorem renderedExcerpt_nil (ce : ContextExtractor) (ctx : ConversationContext)
    (h : ctx.events = []) : renderedExcerpt ce ctx = [] := by
  unfold renderedExcerpt
  rw [h]
  rfl

/-- Go `CreateExcerpt` as one conditional over the untruncated render. -/
theorem createExcerpt_eq (ce : ContextExtractor) (ctx : ConversationContext) :
    createExcerpt ce ctx =
      if (golen (renderedExcerpt ce ctx) : Int) > ce.maxExcerptLength then
        if ce.maxExcerptLength - 3 < 0 then none
        else some (goTake (ce.maxExcerptLength - 3).toNat (renderedExcerpt ce ctx) ++ gb ("..."))
      else some (renderedExcerpt ce ctx) := rfl

/-- The truncation contract of `CreateExcerpt` for a maximum of at least 3:
no panic, the result is bounded by the maximum, a truncated result carries
the `...` marker, and no events compile to the empty string. -/
theorem createExcerpt_spec (ce : ContextExtractor) (ctx : ConversationContext)
    (h3 : 3 ≤ ce.maxExcerptLength) :
    ∃ s, createExcerpt ce ctx = some s
      ∧ (golen s : Int) ≤ ce.maxExcerptLength
      ∧ ((golen (renderedExcerpt ce ctx) : Int) > ce.maxExcerptLength →
          endsWith (gb ("...")) s = true)
      ∧ (ctx.events = [] → s = []) := by
  rw [createExcerpt_eq]
  by_cases hlen : (golen (renderedExcerpt ce ctx) : Int) > ce.maxExcerptLength
  · have hng : ¬ (ce.maxExcerptLength - 3 < 0) := by omega
    rw [if_pos hlen, if_neg hng]
    refine ⟨_, rfl, ?_, fun _ => ?_, fun hev => ?_⟩
    · have hdots : (gb ("...")).length = 3 := by decide
      simp only [golen, goTake, List.length_append, List.length_take, hdots]
      have hcast : ((ce.maxExcerptLength - 3).toNat : Int) = ce.maxExcerptLength - 3 :=
        Int.toNat_of_nonneg (by omega)
      have hmin := Nat.min_le_left (ce.maxExcerptLength - 3).toNat (renderedExcerpt ce ctx).length
      omega
    · unfold endsWith
      rw [List.isSuffixOf_iff_suffix]
      exact List.suffix_append _ _
    · exfalso
      rw [renderedExcerpt_nil ce ctx hev] at hlen
      simp only [golen, List.length_nil, Int.natCast_zero] at hlen
      omega
  · rw [if_neg hlen]
    exact ⟨_, rfl, le_of_not_lt hlen, fun h => absurd h hlen,
      fun hev => renderedExcerpt_nil ce ctx hev⟩

/-- The extractor built by `processGitCommit` inherits a loaded maximum of at
least 3. -/
theorem newContextExtractor_max_ge (cfg : NotesConfig) (h3 : 3 ≤ cfg.maxExcerptLength) :
    3 ≤ (newContextExtractor (some cfg)).maxExcerptLength := by
  unfold newContextExtractor
  simp only
  split
  · exact h3
  · omega

/-- With a loaded maximum of at least 3, `processGitCommit` never panics. -/
theorem processGitCommit_isSome (env : HookEnv) (st : GitState) (input : HookInput)
    (bashInput : BashToolInput)
    (h3 : 3 ≤ (loadNotesConfig env.configFile).maxExcerptLength) :
    ∃ r, processGitCommit env st input bashInput = some r := by
  unfold processGitCommit
  dsimp only
  split
  · exact ⟨_, rfl⟩
  · split
    · exact ⟨_, rfl⟩
    · split
      · exact ⟨_, rfl⟩
      · split
        · exact ⟨_, rfl⟩
        · obtain ⟨s, hs, -, -⟩ :=
            createExcerpt_spec (newContextExtractor (some (loadNotesConfig env.configFile)))
              (extractContextSinceMerged
                (newContextExtractor (some (loadNotesConfig env.configFile))) env.fileContexts)
              (newContextExtractor_max_ge _ h3)
          simp only [hs]
          split
          · exact ⟨_, rfl⟩
          · exact ⟨_, rfl⟩

/-- C4: amended truncation bound.  For every context and every extractor
whose configured maximum `N` is at least 3, `CreateExcerpt` returns a string
of length at most `N`; if the untruncated render exceeds `N` the result ends
with the `...` marker; and no events compile to the empty string.  (For a
configured maximum of 1 or 2 the code instead panics — see the
counterexample.) -/
theorem c4_truncation_bound (ce : ContextExtractor) (ctx : ConversationContext)
    (h3 : 3 ≤ ce.maxExcerptLength) :
    ∃ s, createExcerpt ce ctx = some s
      ∧ (golen s : Int) ≤ ce.maxExcerptLength
      ∧ ((golen (renderedExcerpt ce ctx) : Int) > ce.maxExcerptLength →
          endsWith (gb ("...")) s = true)
      ∧ (ctx.events = [] → s = []) :=
  createExcerpt_spec ce ctx h3

/-- C4 witness: the default extractor (maximum 5000) on a one-event context. -/
theorem c4_truncation_bound_witness :
    3 ≤ ceNil.maxExcerptLength
    ∧ ∃ s, createExcerpt ceNil oneAssistantCtx = some s
        ∧ (golen s : Int) ≤ ceNil.maxExcerptLength
        ∧ ((golen (renderedExcerpt ceNil oneAssistantCtx) : Int) > ceNil.maxExcerptLength →
            endsWith (gb ("...")) s = true)
        ∧ (oneAssistantCtx.events = [] → s = []) :=
  ⟨by decide, c4_truncation_bound ceNil oneAssistantCtx (by decide)⟩

/-- C4 counterexample: with the configured maximum 1 (accepted by
`LoadNotesConfig`) and one short user event, the truncation slice index is
negative and Go panics — no excerpt satisfying the claimed bound exists. -/
theorem c4_counterexample_panic :
    createExcerpt ceMax1 oneEventCtx = none
    ∧ ¬ ∃ s, createExcerpt ceMax1 oneEventCtx = some s
        ∧ (golen s : Int) ≤ ceMax1.maxExcerptLength := by
  have h : createExcerpt ceMax1 oneEventCtx = none := by decide
  refine ⟨h, ?_⟩
  rintro ⟨s, hs, -⟩
  rw [h] at hs
  cases hs

/-- C3 amended: for every triggering event successfully read and parsed, and
a configured maximum excerpt length of at least 3 (the panic of the excerpt
compiler being the one escape, see the counterexample), the emitted decision
is `approve`; every later failure only degrades to "no annotation". -/
theorem c3_always_approve (env : HookEnv) (st : GitState) (input : HookInput)
    (h3 : 3 ≤ (loadNotesConfig env.configFile).maxExcerptLength) :
    ∃ st2, runHook env st (StdinEvent.ok input) = RunOutcome.approveOut st2 := by
  unfold runHook
  dsimp only
  split
  · exact ⟨st, rfl⟩
  · split
    · exact ⟨st, rfl⟩
    · rename_i bashInput _
      split
      · exact ⟨st, rfl⟩
      · split
        · exact ⟨st, rfl⟩
        · obtain ⟨r, hr⟩ := processGitCommit_isSome env st input bashInput h3
          rw [hr]
          exact ⟨r.1, rfl⟩

/-- C3 witness: a fully concrete parsed commit event under the default
configuration terminates with `approve`. -/
theorem c3_always_approve_witness :
    3 ≤ (loadNotesConfig none).maxExcerptLength
    ∧ ∃ st2, runHook ⟨none, [oneEventCtx], false, none, 0⟩ emptyGitState (StdinEvent.ok inputCommit)
        = RunOutcome.approveOut st2 :=
  ⟨by decide, c3_always_approve ⟨none, [oneEventCtx], false, none, 0⟩ emptyGitState inputCommit (by decide)⟩

/-- C3 counterexample: with the configured maximum 1, the same parsed commit
event makes the excerpt compiler panic, so no decision is emitted at all. -/
theorem c3_counterexample_panic :
    runHook envMax1 emptyGitState (StdinEvent.ok inputCommit) = RunOutcome.panicked emptyGitState := by
  decide

/-- A successful `AddConversationNote` appends one entry whose key was free. -/
theorem add_ok_elim (st : GitState) (nm : NotesManager) (h : GoStr) (note : ConversationNote)
    (st2 : GitState) (hadd : addConversationNote st nm h note = Except.ok st2) :
    st2 = { st with notes := st.notes ++ [((nm.notesRef, h), some note)] }
    ∧ st.notes.lookup (nm.notesRef, h) = none := by
  unfold addConversationNote gitNotesAdd at hadd
  by_cases hcat : ¬ gitCatFileE st h = true
  · rw [if_pos hcat] at hadd
    cases hadd
  · rw [if_neg hcat] at hadd
    by_cases hlook : (List.lookup (nm.notesRef, h) st.notes).isSome = true
    · rw [if_pos hlook] at hadd
      cases hadd
    · rw [if_neg hlook] at hadd
      dsimp only at hadd
      refine ⟨?_, ?_⟩
      · cases hadd
        rfl
      · cases hl : List.lookup (nm.notesRef, h) st.notes with
        | none => rfl
        | some b =>
          rw [hl] at hlook
          simp at hlook

/-- After a successful `AddConversationNote`, the existence check holds. -/
theorem has_after_add (st : GitState) (nm : NotesManager) (h : GoStr) (note : ConversationNote)
    (st2 : GitState) (hadd : addConversationNote st nm h note = Except.ok st2) :
    hasConversationNote st2 nm h = true := by
  obtain ⟨hst2, hnone⟩ := add_ok_elim st nm h note st2 hadd
  subst hst2
  unfold hasConversationNote getConversationNote gitNotesShow
  simp [lookup_append_or, hnone, List.lookup]

/-- A second `processGitCommit` on the state a first run produced leaves that
state unchanged: every branch either already changed nothing, or wrote the
note whose presence now short-circuits the dedup check. -/
theorem pgc_second (env : HookEnv) (st : GitState) (input : HookInput)
    (bashInput : BashToolInput) (st1 : GitState) (err : Bool)
    (h : processGitCommit env st input bashInput = some (st1, err)) :
    ∃ e2, processGitCommit env st1 input bashInput = some (st1, e2) := by
  unfold processGitCommit at h ⊢
  dsimp only at h ⊢
  split at h
  · rename_i hout
    rw [if_pos hout]
    simp only [Option.some.injEq, Prod.mk.injEq] at h
    obtain ⟨rfl, -⟩ := h
    exact ⟨_, rfl⟩
  · rename_i hout
    rw [if_neg hout]
    split at h
    · rename_i hhash
      rw [if_pos hhash]
      simp only [Option.some.injEq, Prod.mk.injEq] at h
      obtain ⟨rfl, -⟩ := h
      exact ⟨_, rfl⟩
    · rename_i hhash
      rw [if_neg hhash]
      split at h
      · rename_i hhas
        simp only [Option.some.injEq, Prod.mk.injEq] at h
        obtain ⟨rfl, -⟩ := h
        rw [if_pos hhas]
        exact ⟨_, rfl⟩
      · rename_i hhas
        split at h
        · rename_i hext
          simp only [Option.some.injEq, Prod.mk.injEq] at h
          obtain ⟨rfl, -⟩ := h
          rw [if_neg hhas, if_pos hext]
          exact ⟨_, rfl⟩
        · rename_i hext
          split at h
          · cases h
          · rename_i s hce
            split at h
            · rename_i hadd
              simp only [Option.some.injEq, Prod.mk.injEq] at h
              obtain ⟨rfl, -⟩ := h
              rw [if_neg hhas, if_neg hext]
              simp only [hce, hadd]
              exact ⟨_, rfl⟩
            · rename_i st2 hadd
              simp only [Option.some.injEq, Prod.mk.injEq] at h
              obtain ⟨rfl, -⟩ := h
              have hhas2 := has_after_add st _ _ _ st2 hadd
              rw [if_pos hhas2]
              exact ⟨_, rfl⟩

/-- C2: running the orchestrator a second time on the very state the first
run produced changes nothing — the dedup check (and, underneath it, the
store's refusal to overwrite) makes annotation at-most-once per commit id. -/
theorem c2_second_run_is_noop :
    ∀ (env : HookEnv) (st : GitState) (input : HookInput) (bashInput : BashToolInput),
      pgcState env (pgcState env st input bashInput) input bashInput
        = pgcState env st input bashInput := by
  intro env st input bashInput
  unfold pgcState
  cases hrun : processGitCommit env st input bashInput with
  | none => simp only [hrun]
  | some p =>
    obtain ⟨st1, err⟩ := p
    obtain ⟨e2, h2⟩ := pgc_second env st input bashInput st1 err hrun
    simp only [hrun, h2]

/-- The restore loop never disturbs an existing note entry. -/
theorem restoreLoop_preserves (nm : NotesManager) (entries : List (GoStr × ConversationNote)) :
    ∀ (st : GitState) (r s : Nat) (key : GoStr × GoStr) (blob : NoteBlob),
      st.notes.lookup key = some blob →
      ((restoreLoop nm entries st r s).state.notes.lookup key) = some blob := by
  induction entries with
  | nil => intro st r s key blob hk; exact hk
  | cons e rest ih =>
    obtain ⟨h, note⟩ := e
    intro st r s key blob hk
    unfold restoreLoop
    split
    · exact ih st r (s + 1) key blob hk
    · split
      · exact ih st r (s + 1) key blob hk
      · split
        · exact hk
        · rename_i st2 hadd
          obtain ⟨hst2, -⟩ := add_ok_elim st nm h note st2 hadd
          subst hst2
          refine ih _ (r + 1) s key blob ?_
          simp [lookup_append_or, hk]

/-- The restore loop leaves the commit set alone and never creates a note
for an object id that does not resolve. -/
theorem restoreLoop_no_create (nm : NotesManager) (entries : List (GoStr × ConversationNote)) :
    ∀ (st : GitState) (r s : Nat) (ref0 h0 : GoStr),
      gitCatFileE st h0 = false →
      (restoreLoop nm entries st r s).state.commits = st.commits
      ∧ ((restoreLoop nm entries st r s).state.notes.lookup (ref0, h0))
          = st.notes.lookup (ref0, h0) := by
  induction entries with
  | nil => intro st r s ref0 h0 hmiss; exact ⟨rfl, rfl⟩
  | cons e rest ih =>
    obtain ⟨h, note⟩ := e
    intro st r s ref0 h0 hmiss
    unfold restoreLoop
    split
    · exact ih st r (s + 1) ref0 h0 hmiss
    · rename_i hcat
      split
      · exact ih st r (s + 1) ref0 h0 hmiss
      · split
        · exact ⟨rfl, rfl⟩
        · rename_i st2 hadd
          have hck : gitCatFileE st h = true := by
            by_cases hc : gitCatFileE st h = true
            · exact hc
            · exact absurd (by simpa using hc) hcat
          have hne : h0 ≠ h := by
            intro hcontra
            rw [hcontra] at hmiss
            rw [hmiss] at hck
            cases hck
          obtain ⟨hst2, -⟩ := add_ok_elim st nm h note st2 hadd
          subst hst2
          have hmiss2 : gitCatFileE { st with notes := st.notes ++ [((nm.notesRef, h), some note)] } h0 = false := hmiss
          obtain ⟨hcomm, hlook⟩ := ih _ (r + 1) s ref0 h0 hmiss2
          refine ⟨hcomm, ?_⟩
          rw [hlook]
          have hbeq : ((ref0, h0) == (nm.notesRef, h)) = false :=
            beq_eq_false_iff_ne.mpr (by intro hp; exact hne (congrArg Prod.snd hp))
          simp [lookup_append_or, List.lookup, hbeq]

/-- Every entry of a backup reads back from the unmodified store. -/
theorem backup_entries_read_back (st : GitState) (nm : NotesManager) (now : Int) :
    ∀ p ∈ (backupAllNotes st nm now).notes, getConversationNote st nm p.1 = Except.ok (some p.2) := by
  have general :
      ∀ (hs : List GoStr) (acc : List (GoStr × ConversationNote)),
        (∀ p ∈ acc, getConversationNote st nm p.1 = Except.ok (some p.2)) →
        ∀ p ∈ hs.foldl
            (fun acc h =>
              match getConversationNote st nm h with
              | Except.ok (some note) => acc ++ [(h, note)]
              | _ => acc) acc,
          getConversationNote st nm p.1 = Except.ok (some p.2) := by
    intro hs
    induction hs with
    | nil => intro acc hacc p hp; exact hacc p hp
    | cons h rest ih =>
      intro acc hacc
      simp only [List.foldl_cons]
      cases hget : getConversationNote st nm h with
      | error e =>
        simp only [hget]
        exact ih acc hacc
      | ok o =>
        cases o with
        | none =>
          simp only [hget]
          exact ih acc hacc
        | some note =>
          simp only [hget]
          refine ih _ ?_
          intro q hq
          rcases List.mem_append.mp hq with hq2 | hq2
          · exact hacc q hq2
          · rw [List.mem_singleton] at hq2
            subst hq2
            exact hget
  intro p hp
  exact general _ [] (by intro q hq; cases hq) p hp

/-- Restoring entries that all read back from the store is a pure skip. -/
theorem restoreLoop_all_skip (st : GitState) (nm : NotesManager) :
    ∀ (entries : List (GoStr × ConversationNote)),
      (∀ p ∈ entries, getConversationNote st nm p.1 = Except.ok (some p.2)) →
      ∀ r s, restoreLoop nm entries st r s = ⟨st, r, s + entries.length, false⟩ := by
  intro entries
  induction entries with
  | nil => intro _ r s; rfl
  | cons e rest ih =>
    obtain ⟨h, note⟩ := e
    intro hprop r s
    have hget : getConversationNote st nm h = Except.ok (some note) :=
      hprop (h, note) (List.mem_cons_self _ _)
    have hrest : ∀ p ∈ rest, getConversationNote st nm p.1 = Except.ok (some p.2) :=
      fun p hp => hprop p (List.mem_cons_of_mem _ hp)
    unfold restoreLoop
    split
    · rw [ih hrest r (s + 1)]
      simp only [RestoreResult.mk.injEq, List.length_cons, true_and, and_true]
      omega
    · have hhas : hasConversationNote st nm h = true := by
        unfold hasConversationNote
        rw [hget]
      rw [if_pos hhas, ih hrest r (s + 1)]
      simp only [RestoreResult.mk.injEq, List.length_cons, true_and, and_true]
      omega

/-- C5: restore never overwrites an existing annotation, never creates one
for an object id that does not resolve, and `restore(backup())` on an
unmodified store restores nothing, skips every entry and does not error. -/
theorem c5_restore_round_trip :
    (∀ (st : GitState) (nm : NotesManager) (now : Int),
      restoreNotesFromBackup st nm (backupAllNotes st nm now)
        = ⟨st, 0, (backupAllNotes st nm now).notes.length, false⟩)
    ∧ (∀ (st : GitState) (nm : NotesManager) (backup : NotesBackup)
        (key : GoStr × GoStr) (blob : NoteBlob),
        st.notes.lookup key = some blob →
        ((restoreNotesFromBackup st nm backup).state.notes.lookup key) = some blob)
    ∧ (∀ (st : GitState) (nm : NotesManager) (backup : NotesBackup) (ref0 h0 : GoStr),
        gitCatFileE st h0 = false →
        ((restoreNotesFromBackup st nm backup).state.notes.lookup (ref0, h0))
          = st.notes.lookup (ref0, h0)) := by
  refine ⟨?_, ?_, ?_⟩
  · intro st nm now
    unfold restoreNotesFromBackup
    have h1 := restoreLoop_all_skip st nm _ (backup_entries_read_back st nm now) 0 0
    simpa using h1
  · intro st nm backup key blob hk
    exact restoreLoop_preserves nm backup.notes st 0 0 key blob hk
  · intro st nm backup ref0 h0 hmiss
    exact (restoreLoop_no_create nm backup.notes st 0 0 ref0 h0 hmiss).2

/-- C5 witness: one-commit store round trip (one entry, skipped, no error),
an existing note surviving a restore, and a non-resolving id staying
annotation-free. -/
theorem c5_restore_round_trip_witness :
    restoreNotesFromBackup stW nmW (backupAllNotes stW nmW 0) = ⟨stW, 0, 1, false⟩
    ∧ ((restoreNotesFromBackup stW nmW backupW).state.notes.lookup
        (gb ("claude-conversations"), gb ("c1"))) = some (some noteW)
    ∧ ((restoreNotesFromBackup stW nmW backupW).state.notes.lookup
        (gb ("claude-conversations"), gb ("c2")))
      = stW.notes.lookup (gb ("claude-conversations"), gb ("c2")) :=
  ⟨(c5_restore_round_trip.1 stW nmW 0).trans (by decide),
   c5_restore_round_trip.2.1 stW nmW backupW (gb ("claude-conversations"), gb ("c1"))
     (some noteW) (by decide),
   c5_restore_round_trip.2.2 stW nmW backupW (gb ("claude-conversations")) (gb ("c2"))
     (by decide)⟩

/-! ### The sort permutes: every pdqsort primitive is built from `lswap` -/

/-- Reinserting a read element over an updated slot permutes a cons. -/
theorem cons_set_perm {α : Type} : ∀ (t : List α) (m : Nat) (a y : α),
    t.get? m = some y → List.Perm (y :: t.set m a) (a :: t) := by
  intro t
  induction t with
  | nil => intro m a y h; cases h
  | cons b t2 ih =>
    intro m a y h
    cases m with
    | zero =>
      injection h with hy
      subst hy
      simp only [List.set]
      exact List.Perm.swap _ _ _
    | succ k =>
      have h2 : t2.get? k = some y := h
      simp only [List.set]
      exact (List.Perm.swap _ _ _).trans
        ((List.Perm.cons b (ih k a y h2)).trans (List.Perm.swap _ _ _))

/-- Writing each of two read values over the other slot permutes the list. -/
theorem set_set_perm {α : Type} : ∀ (l : List α) (i j : Nat) (x y : α),
    l.get? i = some x → l.get? j = some y → List.Perm ((l.set i y).set j x) l := by
  intro l
  induction l with
  | nil => intro i j x y hi hj; cases hi
  | cons a t ih =>
    intro i j x y hi hj
    cases i with
    | zero =>
      injection hi with hx
      subst hx
      cases j with
      | zero =>
        injection hj with hy
        subst hy
        simp only [List.set]
        exact List.Perm.refl _
      | succ k =>
        have hj2 : t.get? k = some y := hj
        simp only [List.set]
        exact cons_set_perm t k _ _ hj2
    | succ m =>
      have hi2 : t.get? m = some x := hi
      cases j with
      | zero =>
        injection hj with hy
        subst hy
        simp only [List.set]
        exact cons_set_perm t m _ _ hi2
      | succ k =>
        have hj2 : t.get? k = some y := hj
        simp only [List.set]
        exact List.Perm.cons a (ih m k x y hi2 hj2)

/-- Go `lswap` permutes. -/
theorem lswap_perm {α : Type} (l : List α) (i j : Nat) : List.Perm (lswap l i j) l := by
  unfold lswap
  cases hi : l.get? i with
  | none => simp only [hi]; exact List.Perm.refl l
  | some x =>
    cases hj : l.get? j with
    | none => simp only [hi, hj]; exact List.Perm.refl l
    | some y => simp only [hi, hj]; exact set_set_perm l i j x y hi hj

/-- The insertion inner loop permutes. -/
theorem bubbleLoop_perm {α : Type} (less : α → α → Bool) (a : Nat) :
    ∀ (j : Nat) (l : List α), List.Perm (bubbleLoop less a j l) l := by
  intro j
  induction j with
  | zero => intro l; exact List.Perm.refl l
  | succ j ih =>
    intro l
    unfold bubbleLoop
    split
    · exact (ih _).trans (lswap_perm l (j + 1) j)
    · exact List.Perm.refl l

/-- The insertion outer loop permutes. -/
theorem insertionOuter_perm {α : Type} (less : α → α → Bool) (a b : Nat) :
    ∀ (fuel i : Nat) (l : List α), List.Perm (insertionOuter less a b fuel i l) l := by
  intro fuel
  induction fuel with
  | zero => intro i l; exact List.Perm.refl l
  | succ f ih =>
    intro i l
    unfold insertionOuter
    split
    · exact (ih _ _).trans (bubbleLoop_perm less a i l)
    · exact List.Perm.refl l

/-- Go `insertionSort_func` permutes. -/
theorem insertionSortGo_perm {α : Type} (less : α → α → Bool) (l : List α) (a b : Nat) :
    List.Perm (insertionSortGo less l a b) l :=
  insertionOuter_perm less a b b (a + 1) l

/-- Go `siftDown_func` permutes. -/
theorem siftDownLoop_perm {α : Type} (less : α → α → Bool) (hi first : Nat) :
    ∀ (fuel root : Nat) (l : List α), List.Perm (siftDownLoop less hi first fuel root l) l := by
  intro fuel
  induction fuel with
  | zero => intro root l; exact List.Perm.refl l
  | succ f ih =>
    intro root l
    unfold siftDownLoop
    dsimp only
    split
    · exact List.Perm.refl l
    · split
      all_goals split
      · exact List.Perm.refl l
      · exact (ih _ _).trans (lswap_perm l _ _)
      · exact List.Perm.refl l
      · exact (ih _ _).trans (lswap_perm l _ _)

/-- Go `siftDown_func` permutes. -/
theorem siftDownGo_perm {α : Type} (less : α → α → Bool) (l : List α) (lo hi first : Nat) :
    List.Perm (siftDownGo less l lo hi first) l :=
  siftDownLoop_perm less hi first (hi + 1) lo l

/-- The heap-building loop permutes. -/
theorem heapBuild_perm {α : Type} (less : α → α → Bool) (hi first : Nat) :
    ∀ (i : Nat) (l : List α), List.Perm (heapBuild less hi first i l) l := by
  intro i
  induction i with
  | zero => intro l; exact siftDownGo_perm less l 0 hi first
  | succ i ih =>
    intro l
    unfold heapBuild
    exact (ih _).trans (siftDownGo_perm less l (i + 1) hi first)

/-- The heap pop loop permutes. -/
theorem heapPop_perm {α : Type} (less : α → α → Bool) (first : Nat) :
    ∀ (n : Nat) (l : List α), List.Perm (heapPop less first n l) l := by
  intro n
  induction n with
  | zero => intro l; exact List.Perm.refl l
  | succ n ih =>
    intro l
    unfold heapPop
    exact (ih _).trans ((siftDownGo_perm less _ 0 n first).trans (lswap_perm l first (first + n)))

/-- Go `heapSort_func` permutes. -/
theorem heapSortGo_perm {α : Type} (less : α → α → Bool) (l : List α) (a b : Nat) :
    List.Perm (heapSortGo less l a b) l :=
  (heapPop_perm less a (b - a) _).trans (heapBuild_perm less (b - a) a ((b - a - 1) / 2) l)

/-- Go `reverseRange_func` permutes. -/
theorem revRangeAux_perm {α : Type} :
    ∀ (fuel i j : Nat) (l : List α), List.Perm (revRangeAux fuel i j l) l := by
  intro fuel
  induction fuel with
  | zero => intro i j l; exact List.Perm.refl l
  | succ f ih =>
    intro i j l
    unfold revRangeAux
    split
    · exact (ih _ _ _).trans (lswap_perm l i j)
    · exact List.Perm.refl l

/-- Go `reverseRange_func` permutes. -/
theorem reverseRangeGo_perm {α : Type} (l : List α) (a b : Nat) :
    List.Perm (reverseRangeGo l a b) l :=
  revRangeAux_perm b a (b - 1) l

/-- The left shift of the partial insertion sort permutes. -/
theorem shiftLeftLoop_perm {α : Type} (less : α → α → Bool) :
    ∀ (j : Nat) (l : List α), List.Perm (shiftLeftLoop less j l) l := by
  intro j
  induction j with
  | zero => intro l; exact List.Perm.refl l
  | succ j ih =>
    intro l
    unfold shiftLeftLoop
    split
    · exact (ih _).trans (lswap_perm l (j + 1) j)
    · exact List.Perm.refl l

/-- The right shift of the partial insertion sort permutes. -/
theorem shiftRightLoop_perm {α : Type} (less : α → α → Bool) (b : Nat) :
    ∀ (fuel j : Nat) (l : List α), List.Perm (shiftRightLoop less b fuel j l) l := by
  intro fuel
  induction fuel with
  | zero => intro j l; exact List.Perm.refl l
  | succ f ih =>
    intro j l
    unfold shiftRightLoop
    split
    · exact (ih _ _).trans (lswap_perm l j (j - 1))
    · exact List.Perm.refl l

/-- Go `partialInsertionSort_func` permutes. -/
theorem partInsOuter_perm {α : Type} (less : α → α → Bool) (a b : Nat) :
    ∀ (steps i : Nat) (l : List α), List.Perm (partInsOuter less a b steps i l).1 l := by
  intro steps
  induction steps with
  | zero => intro i l; exact List.Perm.refl l
  | succ s ih =>
    intro i l
    unfold partInsOuter
    dsimp only
    split
    · exact List.Perm.refl l
    · split
      · exact List.Perm.refl l
      · refine (ih _ _).trans ?_
        split
        · refine (shiftRightLoop_perm less b b _ _).trans ?_
          split
          · exact (shiftLeftLoop_perm less _ _).trans (lswap_perm l _ _)
          · exact lswap_perm l _ _
        · split
          · exact (shiftLeftLoop_perm less _ _).trans (lswap_perm l _ _)
          · exact lswap_perm l _ _

/-- Go `breakPatterns_func` permutes. -/
theorem breakPatternsGo_perm {α : Type} (l : List α) (a b : Nat) :
    List.Perm (breakPatternsGo l a b) l := by
  unfold breakPatternsGo
  dsimp only
  split
  · exact (lswap_perm _ _ _).trans ((lswap_perm _ _ _).trans (lswap_perm _ _ _))
  · exact List.Perm.refl l

/-- The main partition loop permutes. -/
theorem partLoop_perm {α : Type} (less : α → α → Bool) (aIdx b : Nat) :
    ∀ (fuel i j : Nat) (l : List α), List.Perm (partLoop less aIdx b fuel i j l).1 l := by
  intro fuel
  induction fuel with
  | zero => intro i j l; exact List.Perm.refl l
  | succ f ih =>
    intro i j l
    unfold partLoop
    dsimp only
    split
    · exact List.Perm.refl l
    · exact (ih _ _ _).trans (lswap_perm l _ _)

/-- Go `partition_func` permutes. -/
theorem partitionGo_perm {α : Type} (less : α → α → Bool) (l : List α) (a b pivot : Nat) :
    List.Perm (partitionGo less l a b pivot).1 l := by
  unfold partitionGo
  dsimp only
  split
  · exact (lswap_perm _ _ _).trans (lswap_perm l a pivot)
  · set l1 := lswap l a pivot with hl1
    set i0 := advanceI less l1 a b (a + 1) (b - 1) with hi0
    set j0 := retreatJ less l1 a b i0 (b - 1) with hj0
    cases hpl : partLoop less a b b (i0 + 1) (j0 - 1) (lswap l1 i0 j0) with
    | mk l4 j4 =>
      have hp := partLoop_perm less a b b (i0 + 1) (j0 - 1) (lswap l1 i0 j0)
      rw [hpl] at hp
      simp only [hpl]
      exact (lswap_perm _ _ _).trans
        (hp.trans ((lswap_perm _ _ _).trans (lswap_perm l a pivot)))

/-- The partition-equal loop permutes. -/
theorem partEqLoop_perm {α : Type} (less : α → α → Bool) (aIdx b : Nat) :
    ∀ (fuel i j : Nat) (l : List α), List.Perm (partEqLoop less aIdx b fuel i j l).1 l := by
  intro fuel
  induction fuel with
  | zero => intro i j l; exact List.Perm.refl l
  | succ f ih =>
    intro i j l
    unfold partEqLoop
    dsimp only
    split
    · exact List.Perm.refl l
    · exact (ih _ _ _).trans (lswap_perm l _ _)

/-- Go `partitionEqual_func` permutes. -/
theorem partitionEqualGo_perm {α : Type} (less : α → α → Bool) (l : List α) (a b pivot : Nat) :
    List.Perm (partitionEqualGo less l a b pivot).1 l := by
  unfold partitionEqualGo
  exact (partEqLoop_perm less a b b (a + 1) (b - 1) _).trans (lswap_perm l a pivot)

/-- The break step permutes. -/
theorem pdqBreakStep_perm {α : Type} (l : List α) (a b limit : Nat) (wb : Bool) :
    List.Perm (pdqBreakStep l a b limit wb).1 l := by
  unfold pdqBreakStep
  split
  · exact breakPatternsGo_perm l a b
  · exact List.Perm.refl l

/-- The pivot step permutes. -/
theorem pdqPivotStep_perm {α : Type} (less : α → α → Bool) (l : List α) (a b : Nat) :
    List.Perm (pdqPivotStep less l a b).1 l := by
  unfold pdqPivotStep
  cases hcp : choosePivotGo less l a b with
  | mk pivot hint =>
    dsimp only
    split
    · exact reverseRangeGo_perm l a b
    · exact List.Perm.refl l

/-- The likely-sorted step permutes. -/
theorem pdqPartialStep_perm {α : Type} (less : α → α → Bool) (l : List α) (a b : Nat)
    (wb wp : Bool) (hint : SortedHint) :
    List.Perm (pdqPartialStep less l a b wb wp hint).1 l := by
  unfold pdqPartialStep
  split
  · exact partInsOuter_perm less a b 5 (a + 1) l
  · exact List.Perm.refl l

/-- Go `pdqsort_func` permutes. -/
theorem pdqsortGo_perm {α : Type} (less : α → α → Bool) :
    ∀ (fuel : Nat) (l : List α) (a b limit : Nat) (wb wp : Bool),
      List.Perm (pdqsortGo less fuel l a b limit wb wp) l := by
  intro fuel
  induction fuel with
  | zero => intro l a b limit wb wp; exact List.Perm.refl l
  | succ f ih =>
    intro l a b limit wb wp
    unfold pdqsortGo
    dsimp only
    split
    · exact insertionSortGo_perm less l a b
    · split
      · exact heapSortGo_perm less l a b
      · cases hb : pdqBreakStep l a b limit wb with
        | mk l1 limit1 =>
          have perm1 : List.Perm l1 l := by
            have hx := pdqBreakStep_perm l a b limit wb
            rw [hb] at hx
            exact hx
          simp only [hb]
          cases hp : pdqPivotStep less l1 a b with
          | mk l2 ph =>
            have perm2 : List.Perm l2 l1 := by
              have hx := pdqPivotStep_perm less l1 a b
              rw [hp] at hx
              exact hx
            cases ph with
            | mk pivot hint =>
              simp only [hp]
              cases hq : pdqPartialStep less l2 a b wb wp hint with
              | mk l3 done =>
                have perm3 : List.Perm l3 l := by
                  have hx := pdqPartialStep_perm less l2 a b wb wp hint
                  rw [hq] at hx
                  exact (hx.trans perm2).trans perm1
                simp only [hq]
                split
                · exact perm3
                · split
                  · cases hpe : partitionEqualGo less l3 a b pivot with
                    | mk l4 mid =>
                      have perm4 : List.Perm l4 l3 := by
                        have hx := partitionEqualGo_perm less l3 a b pivot
                        rw [hpe] at hx
                        exact hx
                      simp only [hpe]
                      exact (ih _ _ _ _ _ _).trans (perm4.trans perm3)
                  · cases hpt : partitionGo less l3 a b pivot with
                    | mk l4 pr =>
                      have perm4 : List.Perm l4 l3 := by
                        have hx := partitionGo_perm less l3 a b pivot
                        rw [hpt] at hx
                        exact hx
                      cases pr with
                      | mk mid ap =>
                        simp only [hpt]
                        dsimp only
                        split
                        · exact (ih _ _ _ _ _ _).trans
                            ((ih _ _ _ _ _ _).trans (perm4.trans perm3))
                        · exact (ih _ _ _ _ _ _).trans
                            ((ih _ _ _ _ _ _).trans (perm4.trans perm3))

/-- Go `sort.Slice` permutes its slice. -/
theorem sortSliceGo_perm {α : Type} (less : α → α → Bool) (l : List α) :
    List.Perm (sortSliceGo less l) l :=
  pdqsortGo_perm less (l.length + 8) l 0 l.length (bitsLen l.length) true true

/-- The events sort of `CreateExcerpt` permutes the events. -/
theorem goSortEvents_perm (events : List ConversationEvent) :
    List.Perm (goSortEvents events) events :=
  sortSliceGo_perm eventBefore events

/-- C10: `CreateExcerpt` mutates exactly the `Events` field of its argument —
it becomes the `sort.Slice`-sorted permutation of the parsed events — while
`UserPrompts`, `ClaudeResponses`, `ToolInteractions` and `LastEventTime` are
left unchanged; and the reordering is real (second conjunct: a concrete
context whose events come back in a different order). -/
theorem c10_mutates_only_events :
    (∀ (ce : ContextExtractor) (ctx : ConversationContext),
      (createExcerptRun ce ctx).1 = { ctx with events := goSortEvents ctx.events }
      ∧ List.Perm (createExcerptRun ce ctx).1.events ctx.events
      ∧ (createExcerptRun ce ctx).1.userPrompts = ctx.userPrompts
      ∧ (createExcerptRun ce ctx).1.claudeResponses = ctx.claudeResponses
      ∧ (createExcerptRun ce ctx).1.toolInteractions = ctx.toolInteractions
      ∧ (createExcerptRun ce ctx).1.lastEventTime = ctx.lastEventTime)
    ∧ (createExcerptRun ceNil twoEventsCtx).1.events ≠ twoEventsCtx.events :=
  ⟨fun ce ctx => ⟨rfl, goSortEvents_perm ctx.events, rfl, rfl, rfl, rfl⟩, by decide⟩

/-- C8 counterexample: on thirteen parsed events the `sort.Slice` pdqsort
reorders equal-timestamp events — the subsequence of timestamp-1 events
after sorting differs from their parse order. -/
theorem c8_counterexample_unstable :
    (goSortEvents cexEvents13).filter (fun e => e.timestamp = 1)
      ≠ cexEvents13.filter (fun e => e.timestamp = 1) := by
  decide

/-! ### Go's insertion sort (the ≤ 12 path of pdqsort) is a stable sort -/

/-- Go `List.set` past a prefix. -/
theorem set_append_len_add {α : Type} :
    ∀ (pre rest : List α) (k : Nat) (v : α),
      (pre ++ rest).set (pre.length + k) v = pre ++ rest.set k v := by
  intro pre
  induction pre with
  | nil => intro rest k v; simp
  | cons a t ih =>
    intro rest k v
    simp only [List.cons_append, List.length_cons]
    have : t.length + 1 + k = (t.length + k) + 1 := by omega
    rw [this]
    simp only [List.set]
    rw [ih]

/-- Element at the seam of `pre ++ x :: suf`. -/
theorem get?_seam {α : Type} (pre suf : List α) (x : α) :
    (pre ++ x :: suf).get? pre.length = some x := by
  rw [List.get?_append_right (Nat.le_refl _)]
  simp

/-- Element one past the seam of `pre ++ y :: x :: suf`. -/
theorem get?_seam_succ {α : Type} (pre suf : List α) (y x : α) :
    (pre ++ y :: x :: suf).get? (pre.length + 1) = some x := by
  rw [List.get?_append_right (by omega)]
  have : pre.length + 1 - pre.length = 1 := by omega
  rw [this]
  simp

/-- List-level rendering of the bubbling inner loop: the accumulator is the
reversed already-processed prefix, and the new element sinks below every
element it is `less` than. -/
def bubbleIns {α : Type} (less : α → α → Bool) (x : α) : List α → List α
  | [] => [x]
  | y :: t => if less x y then y :: bubbleIns less x t else x :: y :: t

/-- Go `bubbleIns` grows the accumulator by one. -/
theorem bubbleIns_length {α : Type} (less : α → α → Bool) (x : α) :
    ∀ (acc : List α), (bubbleIns less x acc).length = acc.length + 1 := by
  intro acc
  induction acc with
  | nil => rfl
  | cons y t ih =>
    unfold bubbleIns
    split
    · simp only [List.length_cons, ih]
    · simp only [List.length_cons]

/-- Go `bubbleIns` permutes a cons. -/
theorem bubbleIns_perm {α : Type} (less : α → α → Bool) (x : α) :
    ∀ (acc : List α), List.Perm (bubbleIns less x acc) (x :: acc) := by
  intro acc
  induction acc with
  | nil => exact List.Perm.refl _
  | cons y t ih =>
    unfold bubbleIns
    split
    · exact (List.Perm.cons y ih).trans (List.Perm.swap x y t)
    · exact List.Perm.refl _

/-- The Go inner loop on `rpre.reverse ++ x :: suf`, started at the seam,
computes `bubbleIns` on the reversed prefix and leaves the suffix alone. -/
theorem bubbleLoop_append {α : Type} (less : α → α → Bool) :
    ∀ (rpre : List α) (x : α) (suf : List α),
      bubbleLoop less 0 rpre.length (rpre.reverse ++ x :: suf)
        = (bubbleIns less x rpre).reverse ++ suf := by
  intro rpre
  induction rpre with
  | nil => intro x suf; rfl
  | cons y t ih =>
    intro x suf
    have hrev : (y :: t).reverse ++ x :: suf = t.reverse ++ (y :: x :: suf) := by
      simp [List.append_assoc]
    have hlen : (y :: t).length = t.length + 1 := rfl
    rw [hrev, hlen]
    unfold bubbleLoop
    have hia : (0 < t.length + 1 && cmpIdx less (t.reverse ++ (y :: x :: suf)) (t.length + 1) t.length)
        = less x y := by
      unfold cmpIdx
      have h1 : (t.reverse ++ (y :: x :: suf)).get? (t.length + 1) = some x := by
        have := get?_seam_succ t.reverse (suf) y x
        simpa using this
      have h2 : (t.reverse ++ (y :: x :: suf)).get? t.length = some y := by
        have := get?_seam t.reverse (x :: suf) y
        simpa using this
      rw [h1, h2]
      simp
    rw [hia]
    cases hxy : less x y with
    | true =>
      rw [if_pos rfl]
      have hsw : lswap (t.reverse ++ (y :: x :: suf)) (t.length + 1) t.length
          = t.reverse ++ (x :: y :: suf) := by
        unfold lswap
        have h1 : (t.reverse ++ (y :: x :: suf)).get? (t.length + 1) = some x := by
          have h0 := get?_seam_succ t.reverse suf y x
          rw [List.length_reverse] at h0
          exact h0
        have h2 : (t.reverse ++ (y :: x :: suf)).get? t.length = some y := by
          have h0 := get?_seam t.reverse (x :: suf) y
          rw [List.length_reverse] at h0
          exact h0
        rw [h1, h2]
        dsimp only
        have hs1 : (t.reverse ++ (y :: x :: suf)).set (t.length + 1) y
            = t.reverse ++ (y :: y :: suf) := by
          have h3 := set_append_len_add t.reverse (y :: x :: suf) 1 y
          rw [List.length_reverse] at h3
          exact h3
        rw [hs1]
        have h4 := set_append_len_add t.reverse (y :: y :: suf) 0 x
        rw [List.length_reverse] at h4
        exact h4
      rw [hsw, ih x (y :: suf)]
      simp only [bubbleIns, hxy, if_true, List.reverse_cons, List.append_assoc,
        List.cons_append, List.nil_append]
    | false =>
      rw [if_neg (by simp)]
      simp only [bubbleIns, hxy, Bool.false_eq_true, if_false, List.reverse_cons,
        List.append_assoc, List.cons_append, List.nil_append]

/-- The Go outer loop is the fold of `bubbleIns` over the unprocessed
suffix, with the reversed processed prefix as accumulator. -/
theorem insertionOuter_foldl {α : Type} (less : α → α → Bool) (b : Nat) :
    ∀ (suf racc : List α) (fuel : Nat),
      racc.length + suf.length = b → suf.length ≤ fuel →
      insertionOuter less 0 b fuel racc.length (racc.reverse ++ suf)
        = (suf.foldl (fun acc x => bubbleIns less x acc) racc).reverse := by
  intro suf
  induction suf with
  | nil =>
    intro racc fuel hb hf
    cases fuel with
    | zero => simp [insertionOuter]
    | succ f =>
      unfold insertionOuter
      simp only [List.length_nil, Nat.add_zero] at hb
      rw [if_neg (by omega)]
      simp
  | cons x suf2 ih =>
    intro racc fuel hb hf
    cases fuel with
    | zero => simp at hf
    | succ f =>
      unfold insertionOuter
      rw [if_pos (by simp at hb ⊢; omega)]
      rw [bubbleLoop_append less racc x suf2]
      have hlen : (bubbleIns less x racc).length = racc.length + 1 :=
        bubbleIns_length less x racc
      have step := ih (bubbleIns less x racc) f
        (by rw [hlen]; simp at hb ⊢; omega) (by simp at hf ⊢; omega)
      rw [hlen] at step
      rw [step]
      simp [List.foldl_cons]

/-- The list-level rendering of `insertionSort_func` over a full range. -/
def goInsertionList {α : Type} (less : α → α → Bool) : List α → List α
  | [] => []
  | x :: rest => (rest.foldl (fun acc y => bubbleIns less y acc) [x]).reverse

/-- Go `insertionSort_func` over the whole slice is the `bubbleIns` fold. -/
theorem insertionSortGo_full {α : Type} (less : α → α → Bool) (l : List α) :
    insertionSortGo less l 0 l.length = goInsertionList less l := by
  cases l with
  | nil => rfl
  | cons x rest =>
    unfold insertionSortGo goInsertionList
    have h := insertionOuter_foldl less (x :: rest).length rest [x] (x :: rest).length
      (by simp only [List.length_cons, List.length_nil]; omega) (by simp)
    simpa using h

/-- For at most 12 elements, `sort.Slice` is exactly its insertion sort. -/
theorem sortSliceGo_small {α : Type} (less : α → α → Bool) (l : List α)
    (h : l.length ≤ 12) : sortSliceGo less l = insertionSortGo less l 0 l.length := by
  unfold sortSliceGo
  have hfuel : l.length + 8 = (l.length + 7) + 1 := rfl
  rw [hfuel]
  unfold pdqsortGo
  rw [if_pos (by omega)]

/-- Inserting keeps the reversed accumulator's non-increasing timestamps. -/
theorem bubbleIns_pairwise (x : ConversationEvent) :
    ∀ (acc : List ConversationEvent),
      acc.Pairwise (fun a b => b.timestamp ≤ a.timestamp) →
      (bubbleIns eventBefore x acc).Pairwise (fun a b => b.timestamp ≤ a.timestamp) := by
  intro acc
  induction acc with
  | nil => intro _; simp [bubbleIns]
  | cons y t ih =>
    intro h
    rw [List.pairwise_cons] at h
    obtain ⟨hy, ht⟩ := h
    simp only [bubbleIns]
    split
    · rename_i hxy
      unfold eventBefore at hxy
      simp only [decide_eq_true_eq] at hxy
      rw [List.pairwise_cons]
      constructor
      · intro z hz
        have hz2 := (bubbleIns_perm eventBefore x t).mem_iff.mp hz
        rcases List.mem_cons.mp hz2 with rfl | hz3
        · omega
        · exact hy z hz3
      · exact ih ht
    · rename_i hxy
      unfold eventBefore at hxy
      simp only [decide_eq_true_eq] at hxy
      rw [List.pairwise_cons]
      constructor
      · intro z hz
        rcases List.mem_cons.mp hz with rfl | hz2
        · omega
        · have := hy z hz2
          omega
      · rw [List.pairwise_cons]
        exact ⟨hy, ht⟩

/-- The fold keeps the accumulator invariant. -/
theorem foldl_bubbleIns_pairwise :
    ∀ (suf racc : List ConversationEvent),
      racc.Pairwise (fun a b => b.timestamp ≤ a.timestamp) →
      (suf.foldl (fun acc x => bubbleIns eventBefore x acc) racc).Pairwise
        (fun a b => b.timestamp ≤ a.timestamp) := by
  intro suf
  induction suf with
  | nil => intro racc h; exact h
  | cons x suf2 ih =>
    intro racc h
    simp only [List.foldl_cons]
    exact ih _ (bubbleIns_pairwise x racc h)

/-- The insertion sort produces non-decreasing timestamps. -/
theorem goInsertionList_sorted (l : List ConversationEvent) :
    (goInsertionList eventBefore l).Pairwise (fun a b => a.timestamp ≤ b.timestamp) := by
  cases l with
  | nil => simp [goInsertionList]
  | cons x rest =>
    unfold goInsertionList
    rw [List.pairwise_reverse]
    exact foldl_bubbleIns_pairwise rest [x] (by simp)

/-- Insertion places the new element before (in reversed order) every stored
element of its own timestamp: the per-timestamp subsequences only grow at
the head. -/
theorem bubbleIns_filter (x : ConversationEvent) (k : Int) :
    ∀ (acc : List ConversationEvent),
      (bubbleIns eventBefore x acc).filter (fun e => e.timestamp = k)
        = if x.timestamp = k then x :: acc.filter (fun e => e.timestamp = k)
          else acc.filter (fun e => e.timestamp = k) := by
  intro acc
  induction acc with
  | nil =>
    by_cases hk : x.timestamp = k <;> simp [bubbleIns, List.filter, hk]
  | cons y t ih =>
    simp only [bubbleIns]
    split
    · rename_i hxy
      unfold eventBefore at hxy
      simp only [decide_eq_true_eq] at hxy
      by_cases hk : x.timestamp = k
      · have hyk : ¬ (y.timestamp = k) := by omega
        simp [List.filter_cons, hk, hyk, ih]
      · simp [List.filter_cons, hk, ih]
    · by_cases hk : x.timestamp = k <;> simp [List.filter_cons, hk]

/-- The fold's per-timestamp subsequence is the processed part reversed in
front of the accumulator's. -/
theorem foldl_bubbleIns_filter (k : Int) :
    ∀ (suf racc : List ConversationEvent),
      ((suf.foldl (fun acc x => bubbleIns eventBefore x acc) racc).filter
          (fun e => e.timestamp = k))
        = ((suf.filter (fun e => e.timestamp = k)).reverse
            ++ racc.filter (fun e => e.timestamp = k)) := by
  intro suf
  induction suf with
  | nil => intro racc; simp
  | cons x suf2 ih =>
    intro racc
    simp only [List.foldl_cons]
    rw [ih (bubbleIns eventBefore x racc), bubbleIns_filter x k racc]
    by_cases hk : x.timestamp = k
    · simp [List.filter_cons, hk, List.append_assoc]
    · simp [List.filter_cons, hk]

/-- The insertion sort is stable: each per-timestamp subsequence keeps its
parse order. -/
theorem goInsertionList_stable (l : List ConversationEvent) (k : Int) :
    (goInsertionList eventBefore l).filter (fun e => e.timestamp = k)
      = l.filter (fun e => e.timestamp = k) := by
  cases l with
  | nil => rfl
  | cons x rest =>
    unfold goInsertionList
    rw [List.filter_reverse, foldl_bubbleIns_filter k rest [x]]
    by_cases hk : x.timestamp = k
    · simp [List.filter_cons, List.filter, hk]
    · simp [List.filter_cons, List.filter, hk]

/-- C8 amended: the merged event sequence used to build the excerpt is always
a permutation of the parsed events; for collections of at most 12 events
(where `sort.Slice` runs its insertion sort) it is ordered by timestamp
ascending and events with equal timestamps keep their relative parse order.
For larger collections the tie-break is not stable (see the
counterexample). -/
theorem c8_order_and_small_stability :
    (∀ (l : List ConversationEvent), List.Perm (goSortEvents l) l)
    ∧ (∀ (l : List ConversationEvent), l.length ≤ 12 →
        (goSortEvents l).Pairwise (fun a b => a.timestamp ≤ b.timestamp)
        ∧ ∀ k : Int, (goSortEvents l).filter (fun e => e.timestamp = k)
            = l.filter (fun e => e.timestamp = k)) := by
  constructor
  · exact goSortEvents_perm
  · intro l hl
    have he : goSortEvents l = goInsertionList eventBefore l := by
      unfold goSortEvents
      rw [sortSliceGo_small eventBefore l hl, insertionSortGo_full]
    rw [he]
    exact ⟨goInsertionList_sorted l, fun k => goInsertionList_stable l k⟩

/-- C8 witness: three shuffled events (two sharing timestamp 5) come back
as a permutation, sorted ascending, with the equal-timestamp pair in parse
order. -/
theorem c8_order_and_small_stability_witness :
    List.Perm (goSortEvents cexSmall) cexSmall
    ∧ cexSmall.length ≤ 12
    ∧ (goSortEvents cexSmall).Pairwise (fun a b => a.timestamp ≤ b.timestamp)
    ∧ (goSortEvents cexSmall).filter (fun e => e.timestamp = 5)
        = cexSmall.filter (fun e => e.timestamp = 5) :=
  ⟨c8_order_and_small_stability.1 cexSmall, by decide,
   (c8_order_and_small_stability.2 cexSmall (by decide)).1,
   (c8_order_and_small_stability.2 cexSmall (by decide)).2 5⟩
